import Mathlib

/-!
Verification of the arithmetic-expression translator (`translator.py`):
a three-stage pipeline of a scanner (`Scanner.scan`), a predictive
recursive-descent parser (`Parser`), and a post-order evaluator
(`SemanticAnalyzer.evaluate`).  Each Python construct is embedded as a
computable Lean definition; machine integers do not occur in the source
(Python integers are unbounded), so values are modelled by `Int`/`Nat`.
-/

namespace Translator

/-! ## Tokens (`Token`, token kinds of `Scanner`) -/

/-- The token kinds used by `Scanner` (`INT`, `POW`, `'('`, `')'`, `','`,
`'+'`, `'*'`, `EOF`, `ERROR`). -/
inductive TokKind
  | INT | POW | LPAREN | RPAREN | COMMA | PLUS | MULT | EOF | ERROR
deriving DecidableEq, Repr

/-- The `Token` class: a kind, an optional numeric payload (set for `INT`
tokens; the Python code also stows the offending character or string on
`ERROR` tokens, which no stage ever reads, so it is dropped here), and the
position.  -/
structure Token where
  kind : TokKind
  value : Option Int := none
  line : Nat
  col : Nat
deriving DecidableEq, Repr

/-! ## Diagnostics

The Python code accumulates formatted strings; only the identity of the
branch that produced a diagnostic and the embedded numbers matter to any
consumer, so diagnostics are embedded as structured values, one constructor
per `_add_error`/`errors.append` call site. -/

/-- Scanner diagnostic messages, one per error branch of `Scanner.scan`.
The `int(num_str)` call of the digit branch cannot raise `ValueError` on a
run of decimal digits, so that dead branch has no constructor. -/
inductive LexMsg
  | negLiteral (v : Int)
  | badIdent (c : Char)
  | unknownChar (c : Char)
deriving DecidableEq, Repr

/-- A scanner diagnostic with its reported position. -/
structure LexDiag where
  msg : LexMsg
  line : Nat
  col : Nat
deriving DecidableEq, Repr

/-- Parser diagnostic messages, one per `_add_error` call site of `Parser`. -/
inductive SynMsg
  | expected (want : TokKind) (got : TokKind)
  | expectedComma
  | expectedRParen
  | atomExpected (got : TokKind)
  | trailing (got : TokKind)
deriving DecidableEq, Repr

/-- A parser diagnostic with its reported position. -/
structure SynDiag where
  msg : SynMsg
  line : Nat
  col : Nat
deriving DecidableEq, Repr

/-- Semantic diagnostic messages, one per `errors.append` call site of
`SemanticAnalyzer.evaluate` (these carry no positions in the source).  The
`OverflowError` handlers are unreachable for Python integers and the
`unknown node type` branch is unreachable over the closed AST type, so
neither has a constructor. -/
inductive SemMsg
  | emptyAst
  | negAddResult (a b : Int)
  | negMulResult (a b : Int)
  | negPowArgs (b e : Int)
  | powTooLarge (e : Int)
  | negPowResult (b e : Int)
deriving DecidableEq, Repr

/-! ## Scanner (`Scanner.scan`) -/

/-- `int(num_str)` on a run of decimal digits. -/
def digitsToNat (ds : List Char) : Nat :=
  ds.foldl (fun a c => a * 10 + (c.toNat - '0'.toNat)) 0

/-- The main loop of `Scanner.scan`, embedded as recursion over the
remaining characters with the mutable `line`/`col` counters passed
explicitly; returns `(self.tokens, self.errors)`.  `Char.isDigit` embeds
Python's `str.isdigit` on the decimal digits (the alphabet of this
language).  The `value < 0` test of the digit branch is kept verbatim.
The recursion is driven structurally by a fuel argument so that concrete
runs reduce inside the kernel; every iteration of the Python loop
consumes at least one character, so a fuel equal to the number of
characters is never exhausted (the fuel-zero branch is dead whenever
`cs.length ≤ fuel`, which `scan` establishes and every lemma below
maintains). -/
def scanAux : Nat → List Char → Nat → Nat → List Token × List LexDiag
  | _, [], line, col => ([⟨.EOF, none, line, col⟩], [])
  | 0, _ :: _, line, col => ([⟨.EOF, none, line, col⟩], [])
  | fuel + 1, c :: rest, line, col =>
    if c = ' ' ∨ c = '\t' then
      scanAux fuel rest line (col + 1)
    else if c = '\n' then
      scanAux fuel rest (line + 1) 1
    else if c.isDigit then
      let ds := c :: rest.takeWhile Char.isDigit
      let rest' := rest.dropWhile Char.isDigit
      let value : Int := (digitsToNat ds : Nat)
      let p := scanAux fuel rest' line (col + ds.length)
      if value < 0 then
        (⟨.ERROR, some value, line, col⟩ :: p.1, ⟨.negLiteral value, line, col⟩ :: p.2)
      else
        (⟨.INT, some value, line, col⟩ :: p.1, p.2)
    else if c = 'p' then
      -- `self.pos + 2 < len(self.source) and self.source[self.pos:self.pos+3] == 'pow'`:
      -- with `c = 'p'` already in hand, the next two characters must be `'o'`, `'w'`.
      if rest.take 2 = ['o', 'w'] then
        let p := scanAux fuel (rest.drop 2) line (col + 3)
        (⟨.POW, none, line, col⟩ :: p.1, p.2)
      else
        let p := scanAux fuel rest line (col + 1)
        (⟨.ERROR, none, line, col⟩ :: p.1, ⟨.badIdent c, line, col⟩ :: p.2)
    else if c = '(' then
      let p := scanAux fuel rest line (col + 1)
      (⟨.LPAREN, none, line, col⟩ :: p.1, p.2)
    else if c = ')' then
      let p := scanAux fuel rest line (col + 1)
      (⟨.RPAREN, none, line, col⟩ :: p.1, p.2)
    else if c = ',' then
      let p := scanAux fuel rest line (col + 1)
      (⟨.COMMA, none, line, col⟩ :: p.1, p.2)
    else if c = '+' then
      let p := scanAux fuel rest line (col + 1)
      (⟨.PLUS, none, line, col⟩ :: p.1, p.2)
    else if c = '*' then
      let p := scanAux fuel rest line (col + 1)
      (⟨.MULT, none, line, col⟩ :: p.1, p.2)
    else
      let p := scanAux fuel rest line (col + 1)
      (⟨.ERROR, none, line, col⟩ :: p.1, ⟨.unknownChar c, line, col⟩ :: p.2)

/-- `Scanner(source).scan()` followed by reading `scanner.errors`:
the token list (EOF-terminated) and the scanner diagnostics. -/
def scan (s : String) : List Token × List LexDiag :=
  scanAux s.data.length s.data 1 1

/-! ## AST (the tuples built by `Parser`) -/

/-- The AST: the parser builds tuples `('INT', v)`, `('+', l, r)`,
`('*', l, r)`, `('pow', b, e)`. -/
inductive AST
  | int (v : Int)
  | add (l r : AST)
  | mul (l r : AST)
  | pow (b e : AST)
deriving DecidableEq, Repr

/-! ## Evaluator (`SemanticAnalyzer.evaluate`) -/

/-- `SemanticAnalyzer.evaluate` on a non-`None` node: returns the computed
value (`none` embeds Python's `None`, the absent value) together with the
diagnostics appended to `self.errors` during the traversal, in order (left
subtree, right subtree, own).  Both operands are evaluated before the
absent check, exactly as in the source.  The `OverflowError` handlers are
unreachable for Python integers and are omitted; every `result < 0` /
argument-sign check is kept verbatim. -/
def evaluate : AST → Option Int × List SemMsg
  | .int v => (some v, [])
  | .add l r =>
    let pl := evaluate l
    let pr := evaluate r
    match pl.1, pr.1 with
    | some a, some b =>
      let result := a + b
      if result < 0 then (none, pl.2 ++ pr.2 ++ [.negAddResult a b])
      else (some result, pl.2 ++ pr.2)
    | _, _ => (none, pl.2 ++ pr.2)
  | .mul l r =>
    let pl := evaluate l
    let pr := evaluate r
    match pl.1, pr.1 with
    | some a, some b =>
      let result := a * b
      if result < 0 then (none, pl.2 ++ pr.2 ++ [.negMulResult a b])
      else (some result, pl.2 ++ pr.2)
    | _, _ => (none, pl.2 ++ pr.2)
  | .pow b e =>
    let pb := evaluate b
    let pe := evaluate e
    match pb.1, pe.1 with
    | some bb, some ee =>
      if bb < 0 ∨ ee < 0 then (none, pb.2 ++ pe.2 ++ [.negPowArgs bb ee])
      else if ee > 1000 then (none, pb.2 ++ pe.2 ++ [.powTooLarge ee])
      else
        let result := bb ^ ee.toNat
        if result < 0 then (none, pb.2 ++ pe.2 ++ [.negPowResult bb ee])
        else (some result, pb.2 ++ pe.2)
    | _, _ => (none, pb.2 ++ pe.2)

/-- `SemanticAnalyzer(ast).evaluate()` including the `node is None` branch
(taken when the parser produced no AST). -/
def evaluateTop : Option AST → Option Int × List SemMsg
  | none => (none, [.emptyAst])
  | some t => evaluate t

/-! ## Parser (`Parser`)

The mutable parser object is embedded as a state record: the (never
mutated) token list, `self.pos`, `self.current_token` and `self.errors`.
The mutually recursive descent of `parse_expr`/`parse_sum`/`parse_prod`/
`parse_atom` and the two folding `while` loops (whose guard `sum_tail[0]
== '+'` is always true, so the `else: break` arms are dead) become one
fuel-indexed step function `parseRun` over a tag type `Call`; a fuel
bound sufficient for every EOF-terminated token list is proved below. -/

/-- `self.current_token` before the very first `_advance` is Python's
`None`; it is overwritten immediately whenever the token list is nonempty
(the scanner always emits at least the EOF token), and the kind `ERROR`
matches no grammar position. -/
def dummyTok : Token := ⟨.ERROR, none, 0, 0⟩

/-- The parser state: `self.tokens`, `self.pos`, `self.current_token`,
`self.errors`. -/
structure PState where
  tokens : List Token
  pos : Nat
  current : Token
  errors : List SynDiag
deriving Repr

/-- `Parser._advance`: move to the next token; past the end of the list
`current_token` is left unchanged. -/
def advance (s : PState) : PState :=
  if h : s.pos < s.tokens.length then
    { s with current := s.tokens.get ⟨s.pos, h⟩, pos := s.pos + 1 }
  else s

/-- `Parser._match(expected_type)`: on a kind match return the token and
advance, otherwise record one diagnostic and return `None`. -/
def matchTok (want : TokKind) (s : PState) : Option Token × PState :=
  if s.current.kind = want then (some s.current, advance s)
  else
    (none,
      { s with errors :=
          s.errors ++ [⟨.expected want s.current.kind, s.current.line, s.current.col⟩] })

/-- `Parser.parse_sum_tail`: consume a `'+'` if present (the inner
`_match` cannot fail after the kind test, so its dead `None` branch
collapses); `some ()` embeds the tuple `('+',)`, `none` embeds `None`. -/
def sumTail (s : PState) : Option Unit × PState :=
  if s.current.kind = .PLUS then (some (), (matchTok .PLUS s).2) else (none, s)

/-- `Parser.parse_prod_tail`, symmetric to `parse_sum_tail` for `'*'`. -/
def prodTail (s : PState) : Option Unit × PState :=
  if s.current.kind = .MULT then (some (), (matchTok .MULT s).2) else (none, s)

/-- Tags for the mutually recursive parsing procedures; the two loop tags
carry the accumulated left-associative chain (`node` in the Python
loops). -/
inductive Call
  | expr
  | sum
  | sumLoop (acc : AST)
  | prod
  | prodLoop (acc : AST)
  | atom
deriving Repr

/-- One fuel-indexed interpreter for `parse_expr`, `parse_sum` (entry and
loop), `parse_prod` (entry and loop) and `parse_atom`.  The outer `none`
means the fuel ran out (shown impossible below for EOF-terminated input);
an inner `none` embeds a Python `None` result. -/
def parseRun : Nat → Call → PState → Option (Option AST × PState)
  | 0, _, _ => none
  | f + 1, .expr, s => parseRun f .sum s
  | f + 1, .sum, s =>
    match parseRun f .prod s with
    | none => none
    | some (none, s₁) => some (none, s₁)
    | some (some node, s₁) =>
      match sumTail s₁ with
      | (none, s₂) => some (some node, s₂)
      | (some _, s₂) => parseRun f (.sumLoop node) s₂
  | f + 1, .sumLoop node, s =>
    match parseRun f .prod s with
    | none => none
    | some (none, s₁) => some (none, s₁)
    | some (some right, s₁) =>
      match sumTail s₁ with
      | (none, s₂) => some (some (.add node right), s₂)
      | (some _, s₂) => parseRun f (.sumLoop (.add node right)) s₂
  | f + 1, .prod, s =>
    match parseRun f .atom s with
    | none => none
    | some (none, s₁) => some (none, s₁)
    | some (some node, s₁) =>
      match prodTail s₁ with
      | (none, s₂) => some (some node, s₂)
      | (some _, s₂) => parseRun f (.prodLoop node) s₂
  | f + 1, .prodLoop node, s =>
    match parseRun f .atom s with
    | none => none
    | some (none, s₁) => some (none, s₁)
    | some (some right, s₁) =>
      match prodTail s₁ with
      | (none, s₂) => some (some (.mul node right), s₂)
      | (some _, s₂) => parseRun f (.prodLoop (.mul node right)) s₂
  | f + 1, .atom, s =>
    if s.current.kind = .INT then
      match matchTok .INT s with
      | (some t, s₁) => some (some (.int (t.value.getD 0)), s₁)
      | (none, s₁) => some (none, s₁)
    else if s.current.kind = .POW then
      match matchTok .POW s with
      | (none, s₁) => some (none, s₁)
      | (some _, s₁) =>
        match matchTok .LPAREN s₁ with
        | (none, s₂) => some (none, s₂)
        | (some _, s₂) =>
          match parseRun f .expr s₂ with
          | none => none
          | some (none, s₃) => some (none, s₃)
          | some (some arg1, s₃) =>
            match matchTok .COMMA s₃ with
            | (none, s₄) =>
              -- `parse_atom` adds its own message after the failed `_match`,
              -- at the (unchanged) current token's position
              some (none,
                { s₄ with errors :=
                    s₄.errors ++ [⟨.expectedComma, s₄.current.line, s₄.current.col⟩] })
            | (some _, s₄) =>
              match parseRun f .expr s₄ with
              | none => none
              | some (none, s₅) => some (none, s₅)
              | some (some arg2, s₅) =>
                match matchTok .RPAREN s₅ with
                | (none, s₆) =>
                  some (none,
                    { s₆ with errors :=
                        s₆.errors ++ [⟨.expectedRParen, s₆.current.line, s₆.current.col⟩] })
                | (some _, s₆) => some (some (.pow arg1 arg2), s₆)
    else
      some (none,
        { s with errors :=
            s.errors ++ [⟨.atomExpected s.current.kind, s.current.line, s.current.col⟩] })

/-- The parser state built by `Parser.__init__` (the initial `_advance`
included). -/
def initState (toks : List Token) : PState :=
  advance ⟨toks, 0, dummyTok, []⟩

/-- A fuel budget sufficient for any EOF-terminated token list (proved in
the termination theorem below). -/
def parseFuel (toks : List Token) : Nat := 5 * (toks.length + 1) + 5

/-- `Parser(tokens).parse()` followed by reading `parser.errors`: the
optional AST and the syntax diagnostics, including the trailing-token
check after `parse_expr`. -/
def parse (toks : List Token) : Option AST × List SynDiag :=
  match parseRun (parseFuel toks) .expr (initState toks) with
  | none => (none, [])
  | some (ast, s) =>
    if s.current.kind = .EOF then (ast, s.errors)
    else
      (ast, s.errors ++ [⟨.trailing s.current.kind, s.current.line, s.current.col⟩])

/-- The whole pipeline on one input text: token list, scanner diagnostics,
AST option, parser diagnostics, value option, semantic diagnostics. -/
def runAll (s : String) :
    (List Token × List LexDiag) × (Option AST × List SynDiag) × (Option Int × List SemMsg) :=
  let scanned := scan s
  let parsed := parse scanned.1
  (scanned, parsed, evaluateTop parsed.1)

/-! ## End-to-end runs -/

/-- The pipeline accepts `s` with no diagnostic at any stage and computes
the value `v`. -/
abbrev evaluatesTo (s : String) (v : Int) : Prop :=
  (runAll s).1.2 = [] ∧ (runAll s).2.1.2 = [] ∧ (runAll s).2.2.2 = [] ∧
    (runAll s).2.2.1 = some v

/-- The token sequence of a three-operand chain `a op b op c` as the
scanner emits it for single-digit literals. -/
def chain3 (op : TokKind) (a b c : Int) : List Token :=
  [⟨.INT, some a, 1, 1⟩, ⟨op, none, 1, 2⟩, ⟨.INT, some b, 1, 3⟩,
   ⟨op, none, 1, 4⟩, ⟨.INT, some c, 1, 5⟩, ⟨.EOF, none, 1, 6⟩]

/-- All integer literals of an AST are non-negative. -/
def NonNegLits : AST → Prop
  | .int v => 0 ≤ v
  | .add l r => NonNegLits l ∧ NonNegLits r
  | .mul l r => NonNegLits l ∧ NonNegLits r
  | .pow b e => NonNegLits b ∧ NonNegLits e

/-- The semantic message is not one of the defensive negativity
diagnostics. -/
def negFreeSem : SemMsg → Prop
  | .negAddResult _ _ => False
  | .negMulResult _ _ => False
  | .negPowArgs _ _ => False
  | .negPowResult _ _ => False
  | _ => True

/-! ## Parser state invariants

`INVp` is the well-formedness carried by every state reachable from an
EOF-terminated token list: the cursor never passes the end, a cursor at
the end holds the (final, EOF) token, and `current_token` is either a
token of the list or the pre-initialisation placeholder. -/

/-- Parser state well-formedness for an EOF-terminated token list. -/
def INVp (s : PState) : Prop :=
  s.pos ≤ s.tokens.length ∧
  (s.tokens.getLast?.map Token.kind = some .EOF) ∧
  (s.pos = s.tokens.length → s.current.kind = .EOF) ∧
  (s.current ∈ s.tokens ∨ s.current = dummyTok)

/-- The remaining-token measure that the recursive descent decreases. -/
def measureP (s : PState) : Nat := s.tokens.length + 1 - s.pos

/-- Depth rank of each parsing procedure inside one measure level
(`expr` calls `sum` calls `prod` calls `atom`, the loops re-enter `prod`
or `atom`). -/
def rank : Call → Nat
  | .expr => 5
  | .sum => 4
  | .sumLoop _ => 4
  | .prod => 3
  | .prodLoop _ => 3
  | .atom => 2

/-- The loop accumulators carried by a `Call`, when present, have
non-negative literals. -/
def CallLits : Call → Prop
  | .sumLoop acc => NonNegLits acc
  | .prodLoop acc => NonNegLits acc
  | _ => True

/-- Count constraint for the diagnostics a parsing procedure appends: a
successful call appends none; a failed call appends one, or two when a
supplementary `pow`-argument message follows a failed `_match`. -/
def ECnt (r : Option AST) (n : Nat) : Prop :=
  match r with
  | some _ => n = 0
  | none => n = 1 ∨ n = 2


/-! ## Position order on tokens -/

/-- The source position `(l, c)` precedes (or equals) the position of
token `t`. -/
def posLE (l c : Nat) (t : Token) : Prop :=
  l < t.line ∨ (l = t.line ∧ c ≤ t.col)

/-- Token `t` is positioned no later than token `u`. -/
def tokLE (t u : Token) : Prop := posLE t.line t.col u
/-! ## Branch laws of the scanner loop

One equation per branch of the `Scanner.scan` character dispatch, so the
inductions below never manipulate the whole branch tree at once. -/

theorem scanAux_space (f : Nat) (c : Char) (rest : List Char) (line col : Nat)
    (h : c = ' ' ∨ c = '\t') :
    scanAux (f + 1) (c :: rest) line col = scanAux f rest line (col + 1) := by
  simp only [scanAux]
  rw [if_pos h]

theorem scanAux_newline (f : Nat) (c : Char) (rest : List Char) (line col : Nat)
    (h1 : ¬(c = ' ' ∨ c = '\t')) (h2 : c = '\n') :
    scanAux (f + 1) (c :: rest) line col = scanAux f rest (line + 1) 1 := by
  simp only [scanAux]
  rw [if_neg h1, if_pos h2]

theorem scanAux_digit (f : Nat) (c : Char) (rest : List Char) (line col : Nat)
    (h : c.isDigit = true) :
    scanAux (f + 1) (c :: rest) line col =
      (⟨.INT, some ((digitsToNat (c :: rest.takeWhile Char.isDigit) : Nat) : Int),
          line, col⟩ ::
        (scanAux f (rest.dropWhile Char.isDigit) line
          (col + (c :: rest.takeWhile Char.isDigit).length)).1,
       (scanAux f (rest.dropWhile Char.isDigit) line
          (col + (c :: rest.takeWhile Char.isDigit).length)).2) := by
  have h1 : ¬(c = ' ' ∨ c = '\t') := by
    rintro (rfl | rfl) <;> revert h <;> decide
  have h2 : ¬c = '\n' := by
    rintro rfl
    revert h
    decide
  simp only [scanAux]
  rw [if_neg h1, if_neg h2, if_pos h, if_neg (not_lt.mpr (Int.natCast_nonneg _))]

theorem scanAux_pow (f : Nat) (rest : List Char) (line col : Nat)
    (h : rest.take 2 = ['o', 'w']) :
    scanAux (f + 1) ('p' :: rest) line col =
      (⟨.POW, none, line, col⟩ :: (scanAux f (rest.drop 2) line (col + 3)).1,
       (scanAux f (rest.drop 2) line (col + 3)).2) := by
  simp [scanAux, h]

theorem scanAux_pbad (f : Nat) (rest : List Char) (line col : Nat)
    (h : ¬rest.take 2 = ['o', 'w']) :
    scanAux (f + 1) ('p' :: rest) line col =
      (⟨.ERROR, none, line, col⟩ :: (scanAux f rest line (col + 1)).1,
       ⟨.badIdent 'p', line, col⟩ :: (scanAux f rest line (col + 1)).2) := by
  simp [scanAux, h]

theorem scanAux_lparen (f : Nat) (rest : List Char) (line col : Nat) :
    scanAux (f + 1) ('(' :: rest) line col =
      (⟨.LPAREN, none, line, col⟩ :: (scanAux f rest line (col + 1)).1,
       (scanAux f rest line (col + 1)).2) := by
  simp [scanAux]

theorem scanAux_rparen (f : Nat) (rest : List Char) (line col : Nat) :
    scanAux (f + 1) (')' :: rest) line col =
      (⟨.RPAREN, none, line, col⟩ :: (scanAux f rest line (col + 1)).1,
       (scanAux f rest line (col + 1)).2) := by
  simp [scanAux]

theorem scanAux_comma (f : Nat) (rest : List Char) (line col : Nat) :
    scanAux (f + 1) (',' :: rest) line col =
      (⟨.COMMA, none, line, col⟩ :: (scanAux f rest line (col + 1)).1,
       (scanAux f rest line (col + 1)).2) := by
  simp [scanAux]

theorem scanAux_plus (f : Nat) (rest : List Char) (line col : Nat) :
    scanAux (f + 1) ('+' :: rest) line col =
      (⟨.PLUS, none, line, col⟩ :: (scanAux f rest line (col + 1)).1,
       (scanAux f rest line (col + 1)).2) := by
  simp [scanAux]

theorem scanAux_mult (f : Nat) (rest : List Char) (line col : Nat) :
    scanAux (f + 1) ('*' :: rest) line col =
      (⟨.MULT, none, line, col⟩ :: (scanAux f rest line (col + 1)).1,
       (scanAux f rest line (col + 1)).2) := by
  simp [scanAux]

theorem scanAux_other (f : Nat) (c : Char) (rest : List Char) (line col : Nat)
    (h1 : ¬(c = ' ' ∨ c = '\t')) (h2 : ¬c = '\n') (h3 : ¬c.isDigit = true)
    (h4 : ¬c = 'p') (h5 : ¬c = '(') (h6 : ¬c = ')') (h7 : ¬c = ',')
    (h8 : ¬c = '+') (h9 : ¬c = '*') :
    scanAux (f + 1) (c :: rest) line col =
      (⟨.ERROR, none, line, col⟩ :: (scanAux f rest line (col + 1)).1,
       ⟨.unknownChar c, line, col⟩ :: (scanAux f rest line (col + 1)).2) := by
  simp only [scanAux]
  rw [if_neg h1, if_neg h2, if_neg h3, if_neg h4, if_neg h5, if_neg h6,
    if_neg h7, if_neg h8, if_neg h9]

/-! ## Scanner invariants -/

/-- Dropping a prefix never lengthens a list (used for the termination of
the scanner loop on a maximal digit run). -/
theorem dropWhile_len_le {α : Type} (p : α → Bool) :
    ∀ l : List α, (l.dropWhile p).length ≤ l.length
  | [] => le_refl _
  | a :: l => by
    by_cases h : p a
    · rw [List.dropWhile_cons_of_pos h]
      exact Nat.le_succ_of_le (dropWhile_len_le p l)
    · rw [List.dropWhile_cons_of_neg h]


theorem posLE_trans {l c l2 c2 : Nat} {t : Token}
    (h1 : l < l2 ∨ (l = l2 ∧ c ≤ c2)) (h2 : posLE l2 c2 t) : posLE l c t := by
  unfold posLE at h2 ⊢
  omega

/-- The scanner loop emits one diagnostic for each `ERROR` token: the two
accumulators grow in lockstep across every branch. -/
theorem scanAux_count :
    ∀ (fuel : Nat) (cs : List Char) (line col : Nat), cs.length ≤ fuel →
      ((scanAux fuel cs line col).1.countP (fun t => decide (t.kind = .ERROR))) =
        (scanAux fuel cs line col).2.length := by
  intro fuel
  induction fuel with
  | zero =>
    intro cs line col h
    obtain rfl : cs = [] := List.length_eq_zero.mp (Nat.le_zero.mp h)
    simp [scanAux]
  | succ f ih =>
    intro cs line col h
    cases cs with
    | nil => simp [scanAux]
    | cons c rest =>
      have hr : rest.length ≤ f := by
        simp only [List.length_cons] at h
        omega
      have hdw : (rest.dropWhile Char.isDigit).length ≤ f :=
        le_trans (dropWhile_len_le _ _) hr
      have hd2 : (rest.drop 2).length ≤ f := by
        rw [List.length_drop]
        omega
      by_cases h1 : c = ' ' ∨ c = '\t'
      · rw [scanAux_space f c rest line col h1]
        exact ih rest line (col + 1) hr
      by_cases h2 : c = '\n'
      · rw [scanAux_newline f c rest line col h1 h2]
        exact ih rest (line + 1) 1 hr
      by_cases h3 : c.isDigit = true
      · rw [scanAux_digit f c rest line col h3]
        simp only [List.countP_cons, List.length_cons]
        rw [ih _ _ _ hdw]
        simp
      by_cases h4 : c = 'p'
      · subst h4
        by_cases h5 : rest.take 2 = ['o', 'w']
        · rw [scanAux_pow f rest line col h5]
          simp only [List.countP_cons, List.length_cons]
          rw [ih _ _ _ hd2]
          simp
        · rw [scanAux_pbad f rest line col h5]
          simp only [List.countP_cons, List.length_cons]
          rw [ih _ _ _ hr]
          simp
      by_cases h5 : c = '('
      · subst h5
        rw [scanAux_lparen f rest line col]
        simp only [List.countP_cons, List.length_cons]
        rw [ih _ _ _ hr]
        simp
      by_cases h6 : c = ')'
      · subst h6
        rw [scanAux_rparen f rest line col]
        simp only [List.countP_cons, List.length_cons]
        rw [ih _ _ _ hr]
        simp
      by_cases h7 : c = ','
      · subst h7
        rw [scanAux_comma f rest line col]
        simp only [List.countP_cons, List.length_cons]
        rw [ih _ _ _ hr]
        simp
      by_cases h8 : c = '+'
      · subst h8
        rw [scanAux_plus f rest line col]
        simp only [List.countP_cons, List.length_cons]
        rw [ih _ _ _ hr]
        simp
      by_cases h9 : c = '*'
      · subst h9
        rw [scanAux_mult f rest line col]
        simp only [List.countP_cons, List.length_cons]
        rw [ih _ _ _ hr]
        simp
      rw [scanAux_other f c rest line col h1 h2 h3 h4 h5 h6 h7 h8 h9]
      simp only [List.countP_cons, List.length_cons]
      rw [ih _ _ _ hr]
      simp

/-- Adding one non-EOF token in front of a block that satisfies the
scanner token invariants (nonempty, EOF-terminated, exactly one EOF, all
positions at or after the block position, position-sorted) keeps them, at
the new token's position. -/
theorem inv_cons_tok {k : TokKind} {v : Option Int} {l c l2 c2 : Nat}
    {ts : List Token}
    (hk : k ≠ TokKind.EOF)
    (hstep : l < l2 ∨ (l = l2 ∧ c ≤ c2))
    (H : ts ≠ [] ∧ (ts.getLast?.map Token.kind = some .EOF) ∧
      (ts.countP (fun t => decide (t.kind = .EOF)) = 1) ∧
      (∀ t ∈ ts, posLE l2 c2 t) ∧ List.Chain' tokLE ts) :
    (⟨k, v, l, c⟩ :: ts : List Token) ≠ [] ∧
    ((⟨k, v, l, c⟩ :: ts : List Token).getLast?.map Token.kind = some .EOF) ∧
    ((⟨k, v, l, c⟩ :: ts : List Token).countP
      (fun t => decide (t.kind = .EOF)) = 1) ∧
    (∀ t ∈ (⟨k, v, l, c⟩ :: ts : List Token), posLE l c t) ∧
    List.Chain' tokLE (⟨k, v, l, c⟩ :: ts : List Token) := by
  obtain ⟨h1, h2, h3, h4, h5⟩ := H
  obtain ⟨x, xs, hx⟩ := List.exists_cons_of_ne_nil h1
  refine ⟨by simp, ?_, ?_, ?_, ?_⟩
  · rw [hx, List.getLast?_cons_cons]
    rw [hx] at h2
    exact h2
  · rw [List.countP_cons_of_neg]
    · exact h3
    · simp [hk]
  · intro t ht
    rcases List.mem_cons.mp ht with rfl | ht'
    · exact Or.inr ⟨rfl, le_refl _⟩
    · exact posLE_trans hstep (h4 t ht')
  · rw [List.chain'_cons']
    refine ⟨fun y hy => ?_, h5⟩
    exact posLE_trans hstep (h4 y (List.mem_of_mem_head? hy))

/-- The scanner loop invariant behind C6: the emitted token block is
nonempty, ends with the unique EOF token, every token sits at or after
the current position, and the block is sorted by position. -/
theorem scanAux_inv :
    ∀ (fuel : Nat) (cs : List Char) (line col : Nat), cs.length ≤ fuel →
      (scanAux fuel cs line col).1 ≠ [] ∧
      ((scanAux fuel cs line col).1.getLast?.map Token.kind = some .EOF) ∧
      ((scanAux fuel cs line col).1.countP
        (fun t => decide (t.kind = .EOF)) = 1) ∧
      (∀ t ∈ (scanAux fuel cs line col).1, posLE line col t) ∧
      List.Chain' tokLE (scanAux fuel cs line col).1 := by
  intro fuel
  induction fuel with
  | zero =>
    intro cs line col h
    obtain rfl : cs = [] := List.length_eq_zero.mp (Nat.le_zero.mp h)
    refine ⟨by simp [scanAux], by simp [scanAux], by simp [scanAux], ?_,
      by simp [scanAux]⟩
    intro t ht
    simp only [scanAux, List.mem_singleton] at ht
    subst ht
    exact Or.inr ⟨rfl, le_refl _⟩
  | succ f ih =>
    intro cs line col h
    cases cs with
    | nil =>
      refine ⟨by simp [scanAux], by simp [scanAux], by simp [scanAux], ?_,
        by simp [scanAux]⟩
      intro t ht
      simp only [scanAux, List.mem_singleton] at ht
      subst ht
      exact Or.inr ⟨rfl, le_refl _⟩
    | cons c rest =>
      have hr : rest.length ≤ f := by
        simp only [List.length_cons] at h
        omega
      have hdw : (rest.dropWhile Char.isDigit).length ≤ f :=
        le_trans (dropWhile_len_le _ _) hr
      have hd2 : (rest.drop 2).length ≤ f := by
        rw [List.length_drop]
        omega
      by_cases h1 : c = ' ' ∨ c = '\t'
      · rw [scanAux_space f c rest line col h1]
        obtain ⟨i1, i2, i3, i4, i5⟩ := ih rest line (col + 1) hr
        exact ⟨i1, i2, i3,
          fun t ht => posLE_trans (Or.inr ⟨rfl, by omega⟩) (i4 t ht), i5⟩
      by_cases h2 : c = '\n'
      · rw [scanAux_newline f c rest line col h1 h2]
        obtain ⟨i1, i2, i3, i4, i5⟩ := ih rest (line + 1) 1 hr
        exact ⟨i1, i2, i3,
          fun t ht => posLE_trans (Or.inl (by omega)) (i4 t ht), i5⟩
      by_cases h3 : c.isDigit = true
      · rw [scanAux_digit f c rest line col h3]
        exact inv_cons_tok (by decide) (Or.inr ⟨rfl, by omega⟩) (ih _ _ _ hdw)
      by_cases h4 : c = 'p'
      · subst h4
        by_cases h5 : rest.take 2 = ['o', 'w']
        · rw [scanAux_pow f rest line col h5]
          exact inv_cons_tok (by decide) (Or.inr ⟨rfl, by omega⟩) (ih _ _ _ hd2)
        · rw [scanAux_pbad f rest line col h5]
          exact inv_cons_tok (by decide) (Or.inr ⟨rfl, by omega⟩) (ih _ _ _ hr)
      by_cases h5 : c = '('
      · subst h5
        rw [scanAux_lparen f rest line col]
        exact inv_cons_tok (by decide) (Or.inr ⟨rfl, by omega⟩) (ih _ _ _ hr)
      by_cases h6 : c = ')'
      · subst h6
        rw [scanAux_rparen f rest line col]
        exact inv_cons_tok (by decide) (Or.inr ⟨rfl, by omega⟩) (ih _ _ _ hr)
      by_cases h7 : c = ','
      · subst h7
        rw [scanAux_comma f rest line col]
        exact inv_cons_tok (by decide) (Or.inr ⟨rfl, by omega⟩) (ih _ _ _ hr)
      by_cases h8 : c = '+'
      · subst h8
        rw [scanAux_plus f rest line col]
        exact inv_cons_tok (by decide) (Or.inr ⟨rfl, by omega⟩) (ih _ _ _ hr)
      by_cases h9 : c = '*'
      · subst h9
        rw [scanAux_mult f rest line col]
        exact inv_cons_tok (by decide) (Or.inr ⟨rfl, by omega⟩) (ih _ _ _ hr)
      rw [scanAux_other f c rest line col h1 h2 h3 h4 h5 h6 h7 h8 h9]
      exact inv_cons_tok (by decide) (Or.inr ⟨rfl, by omega⟩) (ih _ _ _ hr)

/-! ## Single-step laws of the parsing procedures

Each lemma restates one control path of `parseRun` (one Python call or
one loop iteration) as an equation, for use in symbolic runs. -/

theorem run_expr_step (f : Nat) (s : PState) :
    parseRun (f + 1) .expr s = parseRun f .sum s := rfl

theorem run_atom_int (f : Nat) (s : PState) (h : s.current.kind = .INT) :
    parseRun (f + 1) .atom s =
      some (some (.int (s.current.value.getD 0)), advance s) := by
  simp [parseRun, matchTok, h]

theorem run_prod_of_atom (f : Nat) (s s₁ : PState) (r : AST)
    (h : parseRun f .atom s = some (some r, s₁)) (h2 : s₁.current.kind ≠ .MULT) :
    parseRun (f + 1) .prod s = some (some r, s₁) := by
  have ht : prodTail s₁ = (none, s₁) := by simp [prodTail, h2]
  simp only [parseRun, h, ht]

theorem run_prod_tail (f : Nat) (s s₁ : PState) (r : AST)
    (h : parseRun f .atom s = some (some r, s₁)) (h2 : s₁.current.kind = .MULT) :
    parseRun (f + 1) .prod s = parseRun f (.prodLoop r) (advance s₁) := by
  have ht : prodTail s₁ = (some (), advance s₁) := by simp [prodTail, matchTok, h2]
  simp only [parseRun, h, ht]

theorem run_prodLoop_no_tail (f : Nat) (s s₁ : PState) (acc r : AST)
    (h : parseRun f .atom s = some (some r, s₁)) (h2 : s₁.current.kind ≠ .MULT) :
    parseRun (f + 1) (.prodLoop acc) s = some (some (.mul acc r), s₁) := by
  have ht : prodTail s₁ = (none, s₁) := by simp [prodTail, h2]
  simp only [parseRun, h, ht]

theorem run_prodLoop_tail (f : Nat) (s s₁ : PState) (acc r : AST)
    (h : parseRun f .atom s = some (some r, s₁)) (h2 : s₁.current.kind = .MULT) :
    parseRun (f + 1) (.prodLoop acc) s =
      parseRun f (.prodLoop (.mul acc r)) (advance s₁) := by
  have ht : prodTail s₁ = (some (), advance s₁) := by simp [prodTail, matchTok, h2]
  simp only [parseRun, h, ht]

theorem run_sum_of_prod (f : Nat) (s s₁ : PState) (r : AST)
    (h : parseRun f .prod s = some (some r, s₁)) (h2 : s₁.current.kind ≠ .PLUS) :
    parseRun (f + 1) .sum s = some (some r, s₁) := by
  have ht : sumTail s₁ = (none, s₁) := by simp [sumTail, h2]
  simp only [parseRun, h, ht]

theorem run_sum_tail (f : Nat) (s s₁ : PState) (r : AST)
    (h : parseRun f .prod s = some (some r, s₁)) (h2 : s₁.current.kind = .PLUS) :
    parseRun (f + 1) .sum s = parseRun f (.sumLoop r) (advance s₁) := by
  have ht : sumTail s₁ = (some (), advance s₁) := by simp [sumTail, matchTok, h2]
  simp only [parseRun, h, ht]

theorem run_sumLoop_no_tail (f : Nat) (s s₁ : PState) (acc r : AST)
    (h : parseRun f .prod s = some (some r, s₁)) (h2 : s₁.current.kind ≠ .PLUS) :
    parseRun (f + 1) (.sumLoop acc) s = some (some (.add acc r), s₁) := by
  have ht : sumTail s₁ = (none, s₁) := by simp [sumTail, h2]
  simp only [parseRun, h, ht]

theorem run_sumLoop_tail (f : Nat) (s s₁ : PState) (acc r : AST)
    (h : parseRun f .prod s = some (some r, s₁)) (h2 : s₁.current.kind = .PLUS) :
    parseRun (f + 1) (.sumLoop acc) s =
      parseRun f (.sumLoop (.add acc r)) (advance s₁) := by
  have ht : sumTail s₁ = (some (), advance s₁) := by simp [sumTail, matchTok, h2]
  simp only [parseRun, h, ht]

set_option maxRecDepth 40000 in
/-- C1: each end-to-end scenario (scan, parse, evaluate the literal text)
yields the stated value with all three diagnostic sequences empty:
`"7" = 7`, `"4+5*6" = 34`, `"pow(10,2)" = 100`, `"2+3*4" = 14`,
`"2*3+4*5" = 26`, `"pow(2,3)*4" = 32`, `"pow(2,pow(3,4))" = 2 ^ 81`. -/
theorem pipeline_scenarios :
    evaluatesTo "7" 7 ∧ evaluatesTo "4+5*6" 34 ∧ evaluatesTo "pow(10,2)" 100 ∧
    evaluatesTo "2+3*4" 14 ∧ (14 : Int) ≠ 20 ∧ evaluatesTo "2*3+4*5" 26 ∧
    evaluatesTo "pow(2,3)*4" 32 ∧ evaluatesTo "pow(2,pow(3,4))" (2 ^ (81 : Nat)) := by
  decide

/-- C9: evaluating `Pow(IntLiteral(0), IntLiteral(0))` returns the value 1
with no diagnostic (`pow(0, 0) == 1` in Python). -/
theorem eval_pow_zero_zero : evaluate (.pow (.int 0) (.int 0)) = (some 1, []) := by
  decide

/-- C2: at a `Pow` node whose operand subtrees evaluate cleanly to
non-negative `b` and `e`: an exponent above 1000 yields exactly one
semantic diagnostic and the absent value, an exponent at most 1000 yields
exactly `b ^ e` in unbounded integer arithmetic; the boundary cases
1000/1001 behave as stated. -/
theorem eval_pow_domain_rule (B E : AST) (b e : Int)
    (hB : evaluate B = (some b, [])) (hE : evaluate E = (some e, []))
    (hb : 0 ≤ b) (he : 0 ≤ e) :
    (1000 < e → evaluate (.pow B E) = (none, [.powTooLarge e])) ∧
    (e ≤ 1000 → evaluate (.pow B E) = (some (b ^ e.toNat), [])) ∧
    evaluate (.pow (.int 1) (.int 1000)) = (some 1, []) ∧
    evaluate (.pow (.int 1) (.int 1001)) = (none, [.powTooLarge 1001]) := by
  have hneg : ¬(b < 0 ∨ e < 0) := by omega
  have hpow : ¬(b ^ e.toNat < 0) := not_lt.mpr (pow_nonneg hb _)
  refine ⟨fun hgt => ?_, fun hle => ?_, ?_, by decide⟩
  · simp only [evaluate, hB, hE]
    rw [if_neg hneg, if_pos (by exact_mod_cast hgt)]
    simp
  · simp only [evaluate, hB, hE]
    rw [if_neg hneg, if_neg (by omega), if_neg hpow]
    simp
  · -- exponent exactly 1000: the bound check passes and `1 ^ 1000 = 1`
    -- without unfolding the long power computation
    simp [evaluate, one_pow]

/-- Witness for C2 at the concrete node `Pow(IntLiteral(5), IntLiteral(3))`. -/
theorem eval_pow_domain_rule_witness :
    evaluate (.pow (.int 5) (.int 3)) = (some 125, []) := by
  have h := (eval_pow_domain_rule (.int 5) (.int 3) 5 3 rfl rfl (by omega)
    (by omega)).2.1 (by omega)
  simpa using h

/-- C7: an absent operand makes `Add`, `Mul` and `Pow` absent without any
new diagnostic: the result pairs exactly the two operand diagnostic lists
with the absent value. -/
theorem eval_absent_propagates (l r : AST)
    (h : (evaluate l).1 = none ∨ (evaluate r).1 = none) :
    evaluate (.add l r) = (none, (evaluate l).2 ++ (evaluate r).2) ∧
    evaluate (.mul l r) = (none, (evaluate l).2 ++ (evaluate r).2) ∧
    evaluate (.pow l r) = (none, (evaluate l).2 ++ (evaluate r).2) := by
  rcases hl : evaluate l with ⟨lv, le⟩
  rcases hr : evaluate r with ⟨rv, re⟩
  rw [hl, hr] at h
  simp only at h
  refine ⟨?_, ?_, ?_⟩ <;>
  · simp only [evaluate, hl, hr]
    rcases h with h | h <;> subst h
    · rfl
    · cases lv <;> rfl

/-- Witness for C7: an out-of-range `pow` below a left operand demotes
each of the three operations to absent, re-reporting nothing. -/
theorem eval_absent_propagates_witness :
    evaluate (.add (.pow (.int 2) (.int 2000)) (.int 3)) = (none, [.powTooLarge 2000]) ∧
    evaluate (.mul (.pow (.int 2) (.int 2000)) (.int 3)) = (none, [.powTooLarge 2000]) ∧
    evaluate (.pow (.pow (.int 2) (.int 2000)) (.int 3)) = (none, [.powTooLarge 2000]) := by
  have h := eval_absent_propagates (.pow (.int 2) (.int 2000)) (.int 3)
    (Or.inl (by decide))
  simpa using h

/-- C3: same-operator chains parse left-associatively: for all literal
values `a b c`, the token sequence of `a+b+c` parses to
`Add(Add(a,b),c)` and that of `a*b*c` to `Mul(Mul(a,b),c)`, with no
diagnostic; concretely `"1+2+3"` and `"2*3*4"` parse as stated. -/
theorem parse_left_assoc :
    (∀ a b c : Int,
      parse (chain3 .PLUS a b c) =
        (some (.add (.add (.int a) (.int b)) (.int c)), []) ∧
      parse (chain3 .MULT a b c) =
        (some (.mul (.mul (.int a) (.int b)) (.int c)), [])) ∧
    parse (scan "1+2+3").1 = (some (.add (.add (.int 1) (.int 2)) (.int 3)), []) ∧
    parse (scan "2*3*4").1 = (some (.mul (.mul (.int 2) (.int 3)) (.int 4)), []) := by
  refine ⟨fun a b c => ⟨?_, ?_⟩, by decide, by decide⟩
  · -- `a + b + c`: two iterations of the `parse_sum` folding loop
    have hA1 : parseRun (36 + 1) .atom
        ⟨chain3 .PLUS a b c, 1, ⟨.INT, some a, 1, 1⟩, []⟩ =
        some (some (.int a), ⟨chain3 .PLUS a b c, 2, ⟨.PLUS, none, 1, 2⟩, []⟩) :=
      run_atom_int 36 _ rfl
    have hP1 : parseRun (37 + 1) .prod
        ⟨chain3 .PLUS a b c, 1, ⟨.INT, some a, 1, 1⟩, []⟩ =
        some (some (.int a), ⟨chain3 .PLUS a b c, 2, ⟨.PLUS, none, 1, 2⟩, []⟩) :=
      run_prod_of_atom 37 _ _ _ hA1 (fun h => nomatch h)
    have hS1 : parseRun (38 + 1) .sum
        ⟨chain3 .PLUS a b c, 1, ⟨.INT, some a, 1, 1⟩, []⟩ =
        parseRun 38 (.sumLoop (.int a))
          ⟨chain3 .PLUS a b c, 3, ⟨.INT, some b, 1, 3⟩, []⟩ :=
      run_sum_tail 38 _ _ _ hP1 rfl
    have hA2 : parseRun (35 + 1) .atom
        ⟨chain3 .PLUS a b c, 3, ⟨.INT, some b, 1, 3⟩, []⟩ =
        some (some (.int b), ⟨chain3 .PLUS a b c, 4, ⟨.PLUS, none, 1, 4⟩, []⟩) :=
      run_atom_int 35 _ rfl
    have hP2 : parseRun (36 + 1) .prod
        ⟨chain3 .PLUS a b c, 3, ⟨.INT, some b, 1, 3⟩, []⟩ =
        some (some (.int b), ⟨chain3 .PLUS a b c, 4, ⟨.PLUS, none, 1, 4⟩, []⟩) :=
      run_prod_of_atom 36 _ _ _ hA2 (fun h => nomatch h)
    have hL1 : parseRun (37 + 1) (.sumLoop (.int a))
        ⟨chain3 .PLUS a b c, 3, ⟨.INT, some b, 1, 3⟩, []⟩ =
        parseRun 37 (.sumLoop (.add (.int a) (.int b)))
          ⟨chain3 .PLUS a b c, 5, ⟨.INT, some c, 1, 5⟩, []⟩ :=
      run_sumLoop_tail 37 _ _ _ _ hP2 rfl
    have hA3 : parseRun (34 + 1) .atom
        ⟨chain3 .PLUS a b c, 5, ⟨.INT, some c, 1, 5⟩, []⟩ =
        some (some (.int c), ⟨chain3 .PLUS a b c, 6, ⟨.EOF, none, 1, 6⟩, []⟩) :=
      run_atom_int 34 _ rfl
    have hP3 : parseRun (35 + 1) .prod
        ⟨chain3 .PLUS a b c, 5, ⟨.INT, some c, 1, 5⟩, []⟩ =
        some (some (.int c), ⟨chain3 .PLUS a b c, 6, ⟨.EOF, none, 1, 6⟩, []⟩) :=
      run_prod_of_atom 35 _ _ _ hA3 (fun h => nomatch h)
    have hL2 : parseRun (36 + 1) (.sumLoop (.add (.int a) (.int b)))
        ⟨chain3 .PLUS a b c, 5, ⟨.INT, some c, 1, 5⟩, []⟩ =
        some (some (.add (.add (.int a) (.int b)) (.int c)),
          ⟨chain3 .PLUS a b c, 6, ⟨.EOF, none, 1, 6⟩, []⟩) :=
      run_sumLoop_no_tail 36 _ _ _ _ hP3 (fun h => nomatch h)
    have hrun : parseRun (parseFuel (chain3 .PLUS a b c)) .expr
        (initState (chain3 .PLUS a b c)) =
        some (some (.add (.add (.int a) (.int b)) (.int c)),
          ⟨chain3 .PLUS a b c, 6, ⟨.EOF, none, 1, 6⟩, []⟩) := by
      calc parseRun (parseFuel (chain3 .PLUS a b c)) .expr
            (initState (chain3 .PLUS a b c))
          = parseRun (39 + 1) .expr
            ⟨chain3 .PLUS a b c, 1, ⟨.INT, some a, 1, 1⟩, []⟩ := rfl
        _ = parseRun 39 .sum
            ⟨chain3 .PLUS a b c, 1, ⟨.INT, some a, 1, 1⟩, []⟩ := run_expr_step 39 _
        _ = parseRun 38 (.sumLoop (.int a))
            ⟨chain3 .PLUS a b c, 3, ⟨.INT, some b, 1, 3⟩, []⟩ := hS1
        _ = parseRun 37 (.sumLoop (.add (.int a) (.int b)))
            ⟨chain3 .PLUS a b c, 5, ⟨.INT, some c, 1, 5⟩, []⟩ := hL1
        _ = some (some (.add (.add (.int a) (.int b)) (.int c)),
            ⟨chain3 .PLUS a b c, 6, ⟨.EOF, none, 1, 6⟩, []⟩) := hL2
    show parse (chain3 .PLUS a b c) = _
    unfold parse
    rw [hrun]
    rfl
  · -- `a * b * c`: two iterations of the `parse_prod` folding loop
    have hA1 : parseRun (36 + 1) .atom
        ⟨chain3 .MULT a b c, 1, ⟨.INT, some a, 1, 1⟩, []⟩ =
        some (some (.int a), ⟨chain3 .MULT a b c, 2, ⟨.MULT, none, 1, 2⟩, []⟩) :=
      run_atom_int 36 _ rfl
    have hQ1 : parseRun (37 + 1) .prod
        ⟨chain3 .MULT a b c, 1, ⟨.INT, some a, 1, 1⟩, []⟩ =
        parseRun 37 (.prodLoop (.int a))
          ⟨chain3 .MULT a b c, 3, ⟨.INT, some b, 1, 3⟩, []⟩ :=
      run_prod_tail 37 _ _ _ hA1 rfl
    have hA2 : parseRun (35 + 1) .atom
        ⟨chain3 .MULT a b c, 3, ⟨.INT, some b, 1, 3⟩, []⟩ =
        some (some (.int b), ⟨chain3 .MULT a b c, 4, ⟨.MULT, none, 1, 4⟩, []⟩) :=
      run_atom_int 35 _ rfl
    have hQ2 : parseRun (36 + 1) (.prodLoop (.int a))
        ⟨chain3 .MULT a b c, 3, ⟨.INT, some b, 1, 3⟩, []⟩ =
        parseRun 36 (.prodLoop (.mul (.int a) (.int b)))
          ⟨chain3 .MULT a b c, 5, ⟨.INT, some c, 1, 5⟩, []⟩ :=
      run_prodLoop_tail 36 _ _ _ _ hA2 rfl
    have hA3 : parseRun (34 + 1) .atom
        ⟨chain3 .MULT a b c, 5, ⟨.INT, some c, 1, 5⟩, []⟩ =
        some (some (.int c), ⟨chain3 .MULT a b c, 6, ⟨.EOF, none, 1, 6⟩, []⟩) :=
      run_atom_int 34 _ rfl
    have hQ3 : parseRun (35 + 1) (.prodLoop (.mul (.int a) (.int b)))
        ⟨chain3 .MULT a b c, 5, ⟨.INT, some c, 1, 5⟩, []⟩ =
        some (some (.mul (.mul (.int a) (.int b)) (.int c)),
          ⟨chain3 .MULT a b c, 6, ⟨.EOF, none, 1, 6⟩, []⟩) :=
      run_prodLoop_no_tail 35 _ _ _ _ hA3 (fun h => nomatch h)
    have hProd : parseRun (37 + 1) .prod
        ⟨chain3 .MULT a b c, 1, ⟨.INT, some a, 1, 1⟩, []⟩ =
        some (some (.mul (.mul (.int a) (.int b)) (.int c)),
          ⟨chain3 .MULT a b c, 6, ⟨.EOF, none, 1, 6⟩, []⟩) := by
      calc parseRun (37 + 1) .prod
            ⟨chain3 .MULT a b c, 1, ⟨.INT, some a, 1, 1⟩, []⟩
          = parseRun 37 (.prodLoop (.int a))
            ⟨chain3 .MULT a b c, 3, ⟨.INT, some b, 1, 3⟩, []⟩ := hQ1
        _ = parseRun 36 (.prodLoop (.mul (.int a) (.int b)))
            ⟨chain3 .MULT a b c, 5, ⟨.INT, some c, 1, 5⟩, []⟩ := hQ2
        _ = some (some (.mul (.mul (.int a) (.int b)) (.int c)),
            ⟨chain3 .MULT a b c, 6, ⟨.EOF, none, 1, 6⟩, []⟩) := hQ3
    have hSum : parseRun (38 + 1) .sum
        ⟨chain3 .MULT a b c, 1, ⟨.INT, some a, 1, 1⟩, []⟩ =
        some (some (.mul (.mul (.int a) (.int b)) (.int c)),
          ⟨chain3 .MULT a b c, 6, ⟨.EOF, none, 1, 6⟩, []⟩) :=
      run_sum_of_prod 38 _ _ _ hProd (fun h => nomatch h)
    have hrun : parseRun (parseFuel (chain3 .MULT a b c)) .expr
        (initState (chain3 .MULT a b c)) =
        some (some (.mul (.mul (.int a) (.int b)) (.int c)),
          ⟨chain3 .MULT a b c, 6, ⟨.EOF, none, 1, 6⟩, []⟩) := by
      calc parseRun (parseFuel (chain3 .MULT a b c)) .expr
            (initState (chain3 .MULT a b c))
          = parseRun (39 + 1) .expr
            ⟨chain3 .MULT a b c, 1, ⟨.INT, some a, 1, 1⟩, []⟩ := rfl
        _ = parseRun 39 .sum
            ⟨chain3 .MULT a b c, 1, ⟨.INT, some a, 1, 1⟩, []⟩ := run_expr_step 39 _
        _ = some (some (.mul (.mul (.int a) (.int b)) (.int c)),
            ⟨chain3 .MULT a b c, 6, ⟨.EOF, none, 1, 6⟩, []⟩) := hSum
    show parse (chain3 .MULT a b c) = _
    unfold parse
    rw [hrun]
    rfl

/-- C4 fails on the code: on the spec's own missing-comma scenario
`"pow(1 2)"` the failing parse records three diagnostics, not exactly
one — the failed comma `_match`, the supplementary `parse_atom` comma
message, and the top-level trailing-token check. -/
theorem parse_single_diag_counterexample :
    (parse (scan "pow(1 2)").1).1 = none ∧
    (parse (scan "pow(1 2)").1).2 =
      [⟨.expected .COMMA .INT, 1, 7⟩, ⟨.expectedComma, 1, 7⟩,
        ⟨.trailing .INT, 1, 7⟩] ∧
    ((parse (scan "pow(1 2)").1).2).length = 3 := by
  decide

/-- C5: the scanner never aborts: across all inputs it emits exactly one
diagnostic per `ERROR` token (so every bad character yields one of each
and scanning continues), and concretely on `"2@3"` the valid token after
the malformed character still appears. -/
theorem scanner_never_aborts :
    (∀ s : String,
      ((scan s).1.countP (fun t => decide (t.kind = .ERROR))) =
        (scan s).2.length) ∧
    scan "2@3" =
      ([⟨.INT, some 2, 1, 1⟩, ⟨.ERROR, none, 1, 2⟩, ⟨.INT, some 3, 1, 3⟩,
        ⟨.EOF, none, 1, 4⟩], [⟨.unknownChar '@', 1, 2⟩]) :=
  ⟨fun s => scanAux_count s.data.length s.data 1 1 (le_refl _), by decide⟩

/-- C6: for every input the scanner's token list is nonempty, ends with
an EOF token, contains exactly one EOF token, and its `(line, column)`
positions are monotonically non-decreasing in source order. -/
theorem scanner_eof_and_order :
    ∀ s : String,
      (scan s).1 ≠ [] ∧
      ((scan s).1.getLast?.map Token.kind = some .EOF) ∧
      ((scan s).1.countP (fun t => decide (t.kind = .EOF)) = 1) ∧
      List.Chain' tokLE (scan s).1 := by
  intro s
  obtain ⟨h1, h2, h3, _, h5⟩ := scanAux_inv s.data.length s.data 1 1 (le_refl _)
  exact ⟨h1, h2, h3, h5⟩

/-! ## Non-negativity (C8 infrastructure) -/

/-- Every token block the scanner emits carries only natural-number `INT`
payloads, and the negative-literal diagnostic is never emitted. -/
theorem scanAux_values :
    ∀ (fuel : Nat) (cs : List Char) (line col : Nat), cs.length ≤ fuel →
      (∀ t ∈ (scanAux fuel cs line col).1, t.kind = .INT →
        ∃ n : Nat, t.value = some (n : Int)) ∧
      (∀ d ∈ (scanAux fuel cs line col).2, ∀ v : Int, d.msg ≠ .negLiteral v) := by
  intro fuel
  induction fuel with
  | zero =>
    intro cs line col h
    obtain rfl : cs = [] := List.length_eq_zero.mp (Nat.le_zero.mp h)
    constructor
    · intro t ht hk
      simp only [scanAux, List.mem_singleton] at ht
      subst ht
      exact nomatch hk
    · intro d hd
      simp [scanAux] at hd
  | succ f ih =>
    intro cs line col h
    cases cs with
    | nil =>
      constructor
      · intro t ht hk
        simp only [scanAux, List.mem_singleton] at ht
        subst ht
        exact nomatch hk
      · intro d hd
        simp [scanAux] at hd
    | cons c rest =>
      have hr : rest.length ≤ f := by
        simp only [List.length_cons] at h
        omega
      have hdw : (rest.dropWhile Char.isDigit).length ≤ f :=
        le_trans (dropWhile_len_le _ _) hr
      have hd2 : (rest.drop 2).length ≤ f := by
        rw [List.length_drop]
        omega
      by_cases h1 : c = ' ' ∨ c = '\t'
      · rw [scanAux_space f c rest line col h1]
        exact ih rest line (col + 1) hr
      by_cases h2 : c = '\n'
      · rw [scanAux_newline f c rest line col h1 h2]
        exact ih rest (line + 1) 1 hr
      by_cases h3 : c.isDigit = true
      · rw [scanAux_digit f c rest line col h3]
        obtain ⟨i1, i2⟩ := ih _ _ _ hdw
        refine ⟨fun t ht hk => ?_, i2⟩
        rcases List.mem_cons.mp ht with rfl | ht'
        · exact ⟨digitsToNat (c :: rest.takeWhile Char.isDigit), rfl⟩
        · exact i1 t ht' hk
      by_cases h4 : c = 'p'
      · subst h4
        by_cases h5 : rest.take 2 = ['o', 'w']
        · rw [scanAux_pow f rest line col h5]
          obtain ⟨i1, i2⟩ := ih _ _ _ hd2
          refine ⟨fun t ht hk => ?_, i2⟩
          rcases List.mem_cons.mp ht with rfl | ht'
          · exact nomatch hk
          · exact i1 t ht' hk
        · rw [scanAux_pbad f rest line col h5]
          obtain ⟨i1, i2⟩ := ih _ _ _ hr
          constructor
          · intro t ht hk
            rcases List.mem_cons.mp ht with rfl | ht'
            · exact nomatch hk
            · exact i1 t ht' hk
          · intro d hd v
            rcases List.mem_cons.mp hd with rfl | hd'
            · exact fun hv => nomatch hv
            · exact i2 d hd' v
      by_cases h5 : c = '('
      · subst h5
        rw [scanAux_lparen f rest line col]
        obtain ⟨i1, i2⟩ := ih _ _ _ hr
        refine ⟨fun t ht hk => ?_, i2⟩
        rcases List.mem_cons.mp ht with rfl | ht'
        · exact nomatch hk
        · exact i1 t ht' hk
      by_cases h6 : c = ')'
      · subst h6
        rw [scanAux_rparen f rest line col]
        obtain ⟨i1, i2⟩ := ih _ _ _ hr
        refine ⟨fun t ht hk => ?_, i2⟩
        rcases List.mem_cons.mp ht with rfl | ht'
        · exact nomatch hk
        · exact i1 t ht' hk
      by_cases h7 : c = ','
      · subst h7
        rw [scanAux_comma f rest line col]
        obtain ⟨i1, i2⟩ := ih _ _ _ hr
        refine ⟨fun t ht hk => ?_, i2⟩
        rcases List.mem_cons.mp ht with rfl | ht'
        · exact nomatch hk
        · exact i1 t ht' hk
      by_cases h8 : c = '+'
      · subst h8
        rw [scanAux_plus f rest line col]
        obtain ⟨i1, i2⟩ := ih _ _ _ hr
        refine ⟨fun t ht hk => ?_, i2⟩
        rcases List.mem_cons.mp ht with rfl | ht'
        · exact nomatch hk
        · exact i1 t ht' hk
      by_cases h9 : c = '*'
      · subst h9
        rw [scanAux_mult f rest line col]
        obtain ⟨i1, i2⟩ := ih _ _ _ hr
        refine ⟨fun t ht hk => ?_, i2⟩
        rcases List.mem_cons.mp ht with rfl | ht'
        · exact nomatch hk
        · exact i1 t ht' hk
      rw [scanAux_other f c rest line col h1 h2 h3 h4 h5 h6 h7 h8 h9]
      obtain ⟨i1, i2⟩ := ih _ _ _ hr
      constructor
      · intro t ht hk
        rcases List.mem_cons.mp ht with rfl | ht'
        · exact nomatch hk
        · exact i1 t ht' hk
      · intro d hd v
        rcases List.mem_cons.mp hd with rfl | hd'
        · exact fun hv => nomatch hv
        · exact i2 d hd' v

/-- On an AST whose literals are non-negative, the evaluator only ever
produces non-negative values, and none of the defensive negativity
branches fires. -/
theorem eval_nonneg (t : AST) (h : NonNegLits t) :
    (∀ v, (evaluate t).1 = some v → 0 ≤ v) ∧ (∀ m ∈ (evaluate t).2, negFreeSem m) := by
  induction t with
  | int v =>
    refine ⟨fun w hw => ?_, fun m hm => ?_⟩
    · simp only [evaluate, Option.some_inj] at hw
      subst hw
      exact h
    · simp [evaluate] at hm
  | add l r ihl ihr =>
    obtain ⟨hL, hR⟩ := h
    obtain ⟨iv1, ie1⟩ := ihl hL
    obtain ⟨iv2, ie2⟩ := ihr hR
    rcases h1 : evaluate l with ⟨lv, le⟩
    rcases h2 : evaluate r with ⟨rv, re⟩
    rw [h1] at iv1 ie1
    rw [h2] at iv2 ie2
    simp only at iv1 ie1 iv2 ie2
    cases lv with
    | none =>
      refine ⟨fun v hv => ?_, fun m hm => ?_⟩
      · simp [evaluate, h1, h2] at hv
      · simp only [evaluate, h1, h2, List.mem_append] at hm
        rcases hm with hm | hm
        exacts [ie1 m hm, ie2 m hm]
    | some a =>
      cases rv with
      | none =>
        refine ⟨fun v hv => ?_, fun m hm => ?_⟩
        · simp [evaluate, h1, h2] at hv
        · simp only [evaluate, h1, h2, List.mem_append] at hm
          rcases hm with hm | hm
          exacts [ie1 m hm, ie2 m hm]
      | some b =>
        have ha := iv1 a rfl
        have hb := iv2 b rfl
        refine ⟨fun v hv => ?_, fun m hm => ?_⟩
        · simp only [evaluate, h1, h2] at hv
          rw [if_neg (by omega)] at hv
          simp only [Option.some_inj] at hv
          omega
        · simp only [evaluate, h1, h2] at hm
          rw [if_neg (by omega)] at hm
          simp only [List.mem_append] at hm
          rcases hm with hm | hm
          exacts [ie1 m hm, ie2 m hm]
  | mul l r ihl ihr =>
    obtain ⟨hL, hR⟩ := h
    obtain ⟨iv1, ie1⟩ := ihl hL
    obtain ⟨iv2, ie2⟩ := ihr hR
    rcases h1 : evaluate l with ⟨lv, le⟩
    rcases h2 : evaluate r with ⟨rv, re⟩
    rw [h1] at iv1 ie1
    rw [h2] at iv2 ie2
    simp only at iv1 ie1 iv2 ie2
    cases lv with
    | none =>
      refine ⟨fun v hv => ?_, fun m hm => ?_⟩
      · simp [evaluate, h1, h2] at hv
      · simp only [evaluate, h1, h2, List.mem_append] at hm
        rcases hm with hm | hm
        exacts [ie1 m hm, ie2 m hm]
    | some a =>
      cases rv with
      | none =>
        refine ⟨fun v hv => ?_, fun m hm => ?_⟩
        · simp [evaluate, h1, h2] at hv
        · simp only [evaluate, h1, h2, List.mem_append] at hm
          rcases hm with hm | hm
          exacts [ie1 m hm, ie2 m hm]
      | some b =>
        have ha := iv1 a rfl
        have hb := iv2 b rfl
        have hab : ¬(a * b < 0) := not_lt.mpr (mul_nonneg ha hb)
        refine ⟨fun v hv => ?_, fun m hm => ?_⟩
        · simp only [evaluate, h1, h2] at hv
          rw [if_neg hab] at hv
          simp only [Option.some_inj] at hv
          subst hv
          exact mul_nonneg ha hb
        · simp only [evaluate, h1, h2] at hm
          rw [if_neg hab] at hm
          simp only [List.mem_append] at hm
          rcases hm with hm | hm
          exacts [ie1 m hm, ie2 m hm]
  | pow l r ihl ihr =>
    obtain ⟨hL, hR⟩ := h
    obtain ⟨iv1, ie1⟩ := ihl hL
    obtain ⟨iv2, ie2⟩ := ihr hR
    rcases h1 : evaluate l with ⟨lv, le⟩
    rcases h2 : evaluate r with ⟨rv, re⟩
    rw [h1] at iv1 ie1
    rw [h2] at iv2 ie2
    simp only at iv1 ie1 iv2 ie2
    cases lv with
    | none =>
      refine ⟨fun v hv => ?_, fun m hm => ?_⟩
      · simp [evaluate, h1, h2] at hv
      · simp only [evaluate, h1, h2, List.mem_append] at hm
        rcases hm with hm | hm
        exacts [ie1 m hm, ie2 m hm]
    | some a =>
      cases rv with
      | none =>
        refine ⟨fun v hv => ?_, fun m hm => ?_⟩
        · simp [evaluate, h1, h2] at hv
        · simp only [evaluate, h1, h2, List.mem_append] at hm
          rcases hm with hm | hm
          exacts [ie1 m hm, ie2 m hm]
      | some b =>
        have ha := iv1 a rfl
        have hb := iv2 b rfl
        have hneg : ¬(a < 0 ∨ b < 0) := by omega
        have hpw : ¬(a ^ b.toNat < 0) := not_lt.mpr (pow_nonneg ha _)
        by_cases hgt : b > 1000
        · refine ⟨fun v hv => ?_, fun m hm => ?_⟩
          · simp only [evaluate, h1, h2] at hv
            rw [if_neg hneg, if_pos hgt] at hv
            simp at hv
          · simp only [evaluate, h1, h2] at hm
            rw [if_neg hneg, if_pos hgt] at hm
            simp only [List.append_assoc, List.mem_append,
              List.mem_singleton] at hm
            rcases hm with hm | hm | hm
            · exact ie1 m hm
            · exact ie2 m hm
            · subst hm
              trivial
        · refine ⟨fun v hv => ?_, fun m hm => ?_⟩
          · simp only [evaluate, h1, h2] at hv
            rw [if_neg hneg, if_neg hgt, if_neg hpw] at hv
            simp only [Option.some_inj] at hv
            subst hv
            exact pow_nonneg ha _
          · simp only [evaluate, h1, h2] at hm
            rw [if_neg hneg, if_neg hgt, if_neg hpw] at hm
            simp only [List.mem_append] at hm
            rcases hm with hm | hm
            exacts [ie1 m hm, ie2 m hm]

theorem advance_tokens (s : PState) : (advance s).tokens = s.tokens := by
  unfold advance
  split <;> rfl

theorem advance_errors (s : PState) : (advance s).errors = s.errors := by
  unfold advance
  split <;> rfl

theorem advance_pos_le (s : PState) : s.pos ≤ (advance s).pos := by
  unfold advance
  split
  · exact Nat.le_succ _
  · exact le_refl _

theorem advance_stuck (s : PState) (h : s.tokens.length ≤ s.pos) :
    advance s = s := by
  unfold advance
  rw [dif_neg (by omega)]

theorem advance_pos_succ (s : PState) (h : s.pos < s.tokens.length) :
    (advance s).pos = s.pos + 1 := by
  unfold advance
  rw [dif_pos h]

theorem advance_inv (s : PState) (h : INVp s) : INVp (advance s) := by
  obtain ⟨i1, i2, i3, i4⟩ := h
  unfold advance
  split
  case isTrue hlt =>
    refine ⟨by simpa using hlt, by simpa using i2, ?_, ?_⟩
    · intro hp
      simp only at hp
      have hget : s.tokens.getLast? = some (s.tokens.get ⟨s.pos, hlt⟩) := by
        rw [List.getLast?_eq_getElem?]
        have hl : s.tokens.length - 1 = s.pos := by omega
        rw [hl, List.getElem?_eq_getElem hlt]
        simp [List.get_eq_getElem]
      rw [hget] at i2
      simpa using i2
    · exact Or.inl (List.get_mem s.tokens s.pos hlt)
  case isFalse => exact ⟨i1, i2, i3, i4⟩

theorem cur_ne_eof_pos_lt (s : PState) (h : INVp s)
    (hne : s.current.kind ≠ .EOF) : s.pos < s.tokens.length := by
  obtain ⟨i1, _, i3, _⟩ := h
  rcases Nat.lt_or_eq_of_le i1 with hlt | heq
  · exact hlt
  · exact absurd (i3 heq) hne

theorem matchTok_eq_pos (k : TokKind) (s : PState) (h : s.current.kind = k) :
    matchTok k s = (some s.current, advance s) := by
  unfold matchTok
  rw [if_pos h]

theorem matchTok_eq_neg (k : TokKind) (s : PState) (h : ¬s.current.kind = k) :
    matchTok k s =
      (none, { s with errors := s.errors ++
        [⟨.expected k s.current.kind, s.current.line, s.current.col⟩] }) := by
  unfold matchTok
  rw [if_neg h]

theorem sumTail_pos (s : PState) (h : s.current.kind = .PLUS) :
    sumTail s = (some (), advance s) := by
  unfold sumTail
  rw [if_pos h, matchTok_eq_pos _ _ h]

theorem sumTail_neg (s : PState) (h : ¬s.current.kind = .PLUS) :
    sumTail s = (none, s) := by
  unfold sumTail
  rw [if_neg h]

theorem prodTail_pos (s : PState) (h : s.current.kind = .MULT) :
    prodTail s = (some (), advance s) := by
  unfold prodTail
  rw [if_pos h, matchTok_eq_pos _ _ h]

theorem prodTail_neg (s : PState) (h : ¬s.current.kind = .MULT) :
    prodTail s = (none, s) := by
  unfold prodTail
  rw [if_neg h]

/-- Soundness bundle for every parsing procedure: on a completed call the
token list is untouched, the cursor only moves forward, well-formedness
is preserved, and the diagnostics grow by an append whose length obeys
`ECnt` (nothing on success, one or two messages on failure). -/
theorem run_sound :
    ∀ (f : Nat) (c : Call) (s : PState) (r : Option AST) (s' : PState),
      parseRun f c s = some (r, s') →
      s'.tokens = s.tokens ∧ s.pos ≤ s'.pos ∧ (INVp s → INVp s') ∧
      ∃ es, s'.errors = s.errors ++ es ∧ ECnt r es.length := by
  intro f
  induction f with
  | zero =>
    intro c s r s' h
    exact absurd h (by simp [parseRun])
  | succ f ih =>
    intro c s r s' hrun
    cases c with
    | expr =>
      exact ih .sum s r s' hrun
    | sum =>
      simp only [parseRun] at hrun
      rcases hp : parseRun f .prod s with _ | ⟨r₁, s₁⟩
      · rw [hp] at hrun
        simp at hrun
      · rw [hp] at hrun
        obtain ⟨ht, hpos, hinv, es₁, herr₁, hcnt₁⟩ := ih .prod s r₁ s₁ hp
        cases r₁ with
        | none =>
          simp only [Option.some.injEq, Prod.mk.injEq] at hrun
          obtain ⟨rfl, rfl⟩ := hrun
          exact ⟨ht, hpos, hinv, es₁, herr₁, hcnt₁⟩
        | some node =>
          simp only at hrun
          have h0 : es₁.length = 0 := hcnt₁
          by_cases hpl : s₁.current.kind = .PLUS
          · rw [sumTail_pos s₁ hpl] at hrun
            simp only at hrun
            obtain ⟨ht₂, hpos₂, hinv₂, es₂, herr₂, hcnt₂⟩ := ih _ _ _ _ hrun
            refine ⟨?_, ?_, ?_, es₁ ++ es₂, ?_, ?_⟩
            · rw [ht₂, advance_tokens, ht]
            · have h3 := advance_pos_le s₁
              omega
            · intro hs
              exact hinv₂ (advance_inv s₁ (hinv hs))
            · rw [herr₂, advance_errors, herr₁, List.append_assoc]
            · rw [List.length_append, h0, Nat.zero_add]
              exact hcnt₂
          · rw [sumTail_neg s₁ hpl] at hrun
            simp only [Option.some.injEq, Prod.mk.injEq] at hrun
            obtain ⟨rfl, rfl⟩ := hrun
            exact ⟨ht, hpos, hinv, es₁, herr₁, hcnt₁⟩
    | sumLoop node =>
      simp only [parseRun] at hrun
      rcases hp : parseRun f .prod s with _ | ⟨r₁, s₁⟩
      · rw [hp] at hrun
        simp at hrun
      · rw [hp] at hrun
        obtain ⟨ht, hpos, hinv, es₁, herr₁, hcnt₁⟩ := ih .prod s r₁ s₁ hp
        cases r₁ with
        | none =>
          simp only [Option.some.injEq, Prod.mk.injEq] at hrun
          obtain ⟨rfl, rfl⟩ := hrun
          exact ⟨ht, hpos, hinv, es₁, herr₁, hcnt₁⟩
        | some right =>
          simp only at hrun
          have h0 : es₁.length = 0 := hcnt₁
          by_cases hpl : s₁.current.kind = .PLUS
          · rw [sumTail_pos s₁ hpl] at hrun
            simp only at hrun
            obtain ⟨ht₂, hpos₂, hinv₂, es₂, herr₂, hcnt₂⟩ := ih _ _ _ _ hrun
            refine ⟨?_, ?_, ?_, es₁ ++ es₂, ?_, ?_⟩
            · rw [ht₂, advance_tokens, ht]
            · have h3 := advance_pos_le s₁
              omega
            · intro hs
              exact hinv₂ (advance_inv s₁ (hinv hs))
            · rw [herr₂, advance_errors, herr₁, List.append_assoc]
            · rw [List.length_append, h0, Nat.zero_add]
              exact hcnt₂
          · rw [sumTail_neg s₁ hpl] at hrun
            simp only [Option.some.injEq, Prod.mk.injEq] at hrun
            obtain ⟨rfl, rfl⟩ := hrun
            exact ⟨ht, hpos, hinv, es₁, herr₁, hcnt₁⟩
    | prod =>
      simp only [parseRun] at hrun
      rcases hp : parseRun f .atom s with _ | ⟨r₁, s₁⟩
      · rw [hp] at hrun
        simp at hrun
      · rw [hp] at hrun
        obtain ⟨ht, hpos, hinv, es₁, herr₁, hcnt₁⟩ := ih .atom s r₁ s₁ hp
        cases r₁ with
        | none =>
          simp only [Option.some.injEq, Prod.mk.injEq] at hrun
          obtain ⟨rfl, rfl⟩ := hrun
          exact ⟨ht, hpos, hinv, es₁, herr₁, hcnt₁⟩
        | some node =>
          simp only at hrun
          have h0 : es₁.length = 0 := hcnt₁
          by_cases hpl : s₁.current.kind = .MULT
          · rw [prodTail_pos s₁ hpl] at hrun
            simp only at hrun
            obtain ⟨ht₂, hpos₂, hinv₂, es₂, herr₂, hcnt₂⟩ := ih _ _ _ _ hrun
            refine ⟨?_, ?_, ?_, es₁ ++ es₂, ?_, ?_⟩
            · rw [ht₂, advance_tokens, ht]
            · have h3 := advance_pos_le s₁
              omega
            · intro hs
              exact hinv₂ (advance_inv s₁ (hinv hs))
            · rw [herr₂, advance_errors, herr₁, List.append_assoc]
            · rw [List.length_append, h0, Nat.zero_add]
              exact hcnt₂
          · rw [prodTail_neg s₁ hpl] at hrun
            simp only [Option.some.injEq, Prod.mk.injEq] at hrun
            obtain ⟨rfl, rfl⟩ := hrun
            exact ⟨ht, hpos, hinv, es₁, herr₁, hcnt₁⟩
    | prodLoop node =>
      simp only [parseRun] at hrun
      rcases hp : parseRun f .atom s with _ | ⟨r₁, s₁⟩
      · rw [hp] at hrun
        simp at hrun
      · rw [hp] at hrun
        obtain ⟨ht, hpos, hinv, es₁, herr₁, hcnt₁⟩ := ih .atom s r₁ s₁ hp
        cases r₁ with
        | none =>
          simp only [Option.some.injEq, Prod.mk.injEq] at hrun
          obtain ⟨rfl, rfl⟩ := hrun
          exact ⟨ht, hpos, hinv, es₁, herr₁, hcnt₁⟩
        | some right =>
          simp only at hrun
          have h0 : es₁.length = 0 := hcnt₁
          by_cases hpl : s₁.current.kind = .MULT
          · rw [prodTail_pos s₁ hpl] at hrun
            simp only at hrun
            obtain ⟨ht₂, hpos₂, hinv₂, es₂, herr₂, hcnt₂⟩ := ih _ _ _ _ hrun
            refine ⟨?_, ?_, ?_, es₁ ++ es₂, ?_, ?_⟩
            · rw [ht₂, advance_tokens, ht]
            · have h3 := advance_pos_le s₁
              omega
            · intro hs
              exact hinv₂ (advance_inv s₁ (hinv hs))
            · rw [herr₂, advance_errors, herr₁, List.append_assoc]
            · rw [List.length_append, h0, Nat.zero_add]
              exact hcnt₂
          · rw [prodTail_neg s₁ hpl] at hrun
            simp only [Option.some.injEq, Prod.mk.injEq] at hrun
            obtain ⟨rfl, rfl⟩ := hrun
            exact ⟨ht, hpos, hinv, es₁, herr₁, hcnt₁⟩
    | atom =>
      simp only [parseRun] at hrun
      by_cases hInt : s.current.kind = .INT
      · rw [if_pos hInt, matchTok_eq_pos _ _ hInt] at hrun
        simp only [Option.some.injEq, Prod.mk.injEq] at hrun
        obtain ⟨rfl, rfl⟩ := hrun
        refine ⟨advance_tokens s, advance_pos_le s, advance_inv s, [], ?_, rfl⟩
        rw [advance_errors]
        simp
      · rw [if_neg hInt] at hrun
        by_cases hPow : s.current.kind = .POW
        · rw [if_pos hPow, matchTok_eq_pos _ _ hPow] at hrun
          simp only at hrun
          by_cases hLp : (advance s).current.kind = .LPAREN
          · rw [matchTok_eq_pos _ _ hLp] at hrun
            simp only at hrun
            rcases hp : parseRun f .expr (advance (advance s)) with _ | ⟨r₁, s₃⟩
            · rw [hp] at hrun
              simp at hrun
            · rw [hp] at hrun
              obtain ⟨ht, hpos, hinv, es₁, herr₁, hcnt₁⟩ := ih _ _ _ _ hp
              have htA : (advance (advance s)).tokens = s.tokens := by
                rw [advance_tokens, advance_tokens]
              have herrA : (advance (advance s)).errors = s.errors := by
                rw [advance_errors, advance_errors]
              have hposA : s.pos ≤ (advance (advance s)).pos :=
                le_trans (advance_pos_le s) (advance_pos_le (advance s))
              have hinvA : INVp s → INVp (advance (advance s)) :=
                fun hs => advance_inv _ (advance_inv _ hs)
              cases r₁ with
              | none =>
                simp only [Option.some.injEq, Prod.mk.injEq] at hrun
                obtain ⟨rfl, rfl⟩ := hrun
                refine ⟨by rw [ht, htA], by omega, fun hs => hinv (hinvA hs),
                  es₁, by rw [herr₁, herrA], hcnt₁⟩
              | some arg1 =>
                simp only at hrun
                have h0 : es₁.length = 0 := hcnt₁
                have he0 : es₁ = [] := List.length_eq_zero.mp h0
                subst he0
                by_cases hCm : s₃.current.kind = .COMMA
                · rw [matchTok_eq_pos _ _ hCm] at hrun
                  simp only at hrun
                  rcases hp₂ : parseRun f .expr (advance s₃) with _ | ⟨r₂, s₅⟩
                  · rw [hp₂] at hrun
                    simp at hrun
                  · rw [hp₂] at hrun
                    obtain ⟨ht₂, hpos₂, hinv₂, es₂, herr₂, hcnt₂⟩ :=
                      ih _ _ _ _ hp₂
                    cases r₂ with
                    | none =>
                      simp only [Option.some.injEq, Prod.mk.injEq] at hrun
                      obtain ⟨rfl, rfl⟩ := hrun
                      refine ⟨?_, ?_, ?_, es₂, ?_, hcnt₂⟩
                      · rw [ht₂, advance_tokens, ht, htA]
                      · have h3 := advance_pos_le s₃
                        omega
                      · intro hs
                        exact hinv₂ (advance_inv _ (hinv (hinvA hs)))
                      · rw [herr₂, advance_errors, herr₁, herrA]
                        simp
                    | some arg2 =>
                      simp only at hrun
                      have h02 : es₂.length = 0 := hcnt₂
                      have he02 : es₂ = [] := List.length_eq_zero.mp h02
                      subst he02
                      by_cases hRp : s₅.current.kind = .RPAREN
                      · rw [matchTok_eq_pos _ _ hRp] at hrun
                        simp only [Option.some.injEq, Prod.mk.injEq] at hrun
                        obtain ⟨rfl, rfl⟩ := hrun
                        refine ⟨?_, ?_, ?_, [], ?_, rfl⟩
                        · rw [advance_tokens, ht₂, advance_tokens, ht, htA]
                        · have h3 := advance_pos_le s₃
                          have h4 := advance_pos_le s₅
                          omega
                        · intro hs
                          exact advance_inv _
                            (hinv₂ (advance_inv _ (hinv (hinvA hs))))
                        · rw [advance_errors, herr₂, advance_errors, herr₁,
                            herrA]
                          simp
                      · rw [matchTok_eq_neg _ _ hRp] at hrun
                        simp only [Option.some.injEq, Prod.mk.injEq] at hrun
                        obtain ⟨rfl, rfl⟩ := hrun
                        refine ⟨?_, ?_, ?_,
                          [⟨.expected .RPAREN s₅.current.kind, s₅.current.line,
                            s₅.current.col⟩,
                           ⟨.expectedRParen, s₅.current.line, s₅.current.col⟩],
                          ?_, Or.inr rfl⟩
                        · simp only
                          rw [ht₂, advance_tokens, ht, htA]
                        · have h3 := advance_pos_le s₃
                          simp only
                          omega
                        · intro hs
                          exact hinv₂ (advance_inv _ (hinv (hinvA hs)))
                        · simp only
                          rw [herr₂, advance_errors, herr₁, herrA]
                          simp
                · rw [matchTok_eq_neg _ _ hCm] at hrun
                  simp only [Option.some.injEq, Prod.mk.injEq] at hrun
                  obtain ⟨rfl, rfl⟩ := hrun
                  refine ⟨?_, ?_, ?_,
                    [⟨.expected .COMMA s₃.current.kind, s₃.current.line,
                      s₃.current.col⟩,
                     ⟨.expectedComma, s₃.current.line, s₃.current.col⟩],
                    ?_, Or.inr rfl⟩
                  · simp only
                    rw [ht, htA]
                  · simp only
                    omega
                  · intro hs
                    exact hinv (hinvA hs)
                  · simp only
                    rw [herr₁, herrA]
                    simp
          · rw [matchTok_eq_neg _ _ hLp] at hrun
            simp only [Option.some.injEq, Prod.mk.injEq] at hrun
            obtain ⟨rfl, rfl⟩ := hrun
            refine ⟨?_, ?_, ?_,
              [⟨.expected .LPAREN (advance s).current.kind,
                (advance s).current.line, (advance s).current.col⟩],
              ?_, Or.inl rfl⟩
            · simp only
              rw [advance_tokens]
            · have h3 := advance_pos_le s
              simp only
              omega
            · intro hs
              exact advance_inv s hs
            · simp only
              rw [advance_errors]
        · rw [if_neg hPow] at hrun
          simp only [Option.some.injEq, Prod.mk.injEq] at hrun
          obtain ⟨rfl, rfl⟩ := hrun
          exact ⟨rfl, le_refl _, fun hs => hs,
            [⟨.atomExpected s.current.kind, s.current.line, s.current.col⟩],
            rfl, Or.inl rfl⟩

/-- Fuel sufficiency: with the budget `5 * measureP s + rank c`, no
parsing procedure ever exhausts its fuel on a well-formed state.  The
measure strictly decreases across each loop iteration and each descent
from `parse_atom` back into `parse_expr`, because the `'+'`/`'*'`/`pow`/
`'('` token consumed on the way is never the final EOF token. -/
theorem run_fuel :
    ∀ (f : Nat) (c : Call) (s : PState), INVp s →
      5 * measureP s + rank c ≤ f → (parseRun f c s).isSome := by
  intro f
  induction f with
  | zero =>
    intro c s _ hle
    exfalso
    have h1 : 1 ≤ rank c := by cases c <;> simp [rank]
    omega
  | succ f ih =>
    intro c s hinv hle
    cases c with
    | expr =>
      simp only [rank] at hle
      show (parseRun f .sum s).isSome
      exact ih .sum s hinv (by simp only [rank]; omega)
    | sum =>
      simp only [rank] at hle
      have h1 : (parseRun f .prod s).isSome :=
        ih .prod s hinv (by simp only [rank]; omega)
      rcases hp : parseRun f .prod s with _ | ⟨r₁, s₁⟩
      · rw [hp] at h1
        simp at h1
      · obtain ⟨ht, hpos, hinvp, _⟩ := run_sound f .prod s r₁ s₁ hp
        have hinv₁ := hinvp hinv
        have hμ : measureP s₁ ≤ measureP s := by
          unfold measureP
          rw [ht]
          omega
        simp only [parseRun]
        rw [hp]
        cases r₁ with
        | none => simp
        | some node =>
          simp only
          by_cases hpl : s₁.current.kind = .PLUS
          · rw [sumTail_pos s₁ hpl]
            simp only
            have hlt : s₁.pos < s₁.tokens.length :=
              cur_ne_eof_pos_lt s₁ hinv₁ (by rw [hpl]; decide)
            have hμ2 : measureP (advance s₁) < measureP s₁ := by
              unfold measureP
              rw [advance_tokens, advance_pos_succ s₁ hlt]
              omega
            exact ih (.sumLoop node) (advance s₁) (advance_inv s₁ hinv₁)
              (by simp only [rank]; omega)
          · rw [sumTail_neg s₁ hpl]
            simp
    | sumLoop node =>
      simp only [rank] at hle
      have h1 : (parseRun f .prod s).isSome :=
        ih .prod s hinv (by simp only [rank]; omega)
      rcases hp : parseRun f .prod s with _ | ⟨r₁, s₁⟩
      · rw [hp] at h1
        simp at h1
      · obtain ⟨ht, hpos, hinvp, _⟩ := run_sound f .prod s r₁ s₁ hp
        have hinv₁ := hinvp hinv
        have hμ : measureP s₁ ≤ measureP s := by
          unfold measureP
          rw [ht]
          omega
        simp only [parseRun]
        rw [hp]
        cases r₁ with
        | none => simp
        | some right =>
          simp only
          by_cases hpl : s₁.current.kind = .PLUS
          · rw [sumTail_pos s₁ hpl]
            simp only
            have hlt : s₁.pos < s₁.tokens.length :=
              cur_ne_eof_pos_lt s₁ hinv₁ (by rw [hpl]; decide)
            have hμ2 : measureP (advance s₁) < measureP s₁ := by
              unfold measureP
              rw [advance_tokens, advance_pos_succ s₁ hlt]
              omega
            exact ih (.sumLoop (.add node right)) (advance s₁)
              (advance_inv s₁ hinv₁) (by simp only [rank]; omega)
          · rw [sumTail_neg s₁ hpl]
            simp
    | prod =>
      simp only [rank] at hle
      have h1 : (parseRun f .atom s).isSome :=
        ih .atom s hinv (by simp only [rank]; omega)
      rcases hp : parseRun f .atom s with _ | ⟨r₁, s₁⟩
      · rw [hp] at h1
        simp at h1
      · obtain ⟨ht, hpos, hinvp, _⟩ := run_sound f .atom s r₁ s₁ hp
        have hinv₁ := hinvp hinv
        have hμ : measureP s₁ ≤ measureP s := by
          unfold measureP
          rw [ht]
          omega
        simp only [parseRun]
        rw [hp]
        cases r₁ with
        | none => simp
        | some node =>
          simp only
          by_cases hpl : s₁.current.kind = .MULT
          · rw [prodTail_pos s₁ hpl]
            simp only
            have hlt : s₁.pos < s₁.tokens.length :=
              cur_ne_eof_pos_lt s₁ hinv₁ (by rw [hpl]; decide)
            have hμ2 : measureP (advance s₁) < measureP s₁ := by
              unfold measureP
              rw [advance_tokens, advance_pos_succ s₁ hlt]
              omega
            exact ih (.prodLoop node) (advance s₁) (advance_inv s₁ hinv₁)
              (by simp only [rank]; omega)
          · rw [prodTail_neg s₁ hpl]
            simp
    | prodLoop node =>
      simp only [rank] at hle
      have h1 : (parseRun f .atom s).isSome :=
        ih .atom s hinv (by simp only [rank]; omega)
      rcases hp : parseRun f .atom s with _ | ⟨r₁, s₁⟩
      · rw [hp] at h1
        simp at h1
      · obtain ⟨ht, hpos, hinvp, _⟩ := run_sound f .atom s r₁ s₁ hp
        have hinv₁ := hinvp hinv
        have hμ : measureP s₁ ≤ measureP s := by
          unfold measureP
          rw [ht]
          omega
        simp only [parseRun]
        rw [hp]
        cases r₁ with
        | none => simp
        | some right =>
          simp only
          by_cases hpl : s₁.current.kind = .MULT
          · rw [prodTail_pos s₁ hpl]
            simp only
            have hlt : s₁.pos < s₁.tokens.length :=
              cur_ne_eof_pos_lt s₁ hinv₁ (by rw [hpl]; decide)
            have hμ2 : measureP (advance s₁) < measureP s₁ := by
              unfold measureP
              rw [advance_tokens, advance_pos_succ s₁ hlt]
              omega
            exact ih (.prodLoop (.mul node right)) (advance s₁)
              (advance_inv s₁ hinv₁) (by simp only [rank]; omega)
          · rw [prodTail_neg s₁ hpl]
            simp
    | atom =>
      simp only [rank] at hle
      simp only [parseRun]
      by_cases hInt : s.current.kind = .INT
      · rw [if_pos hInt, matchTok_eq_pos _ _ hInt]
        simp
      · rw [if_neg hInt]
        by_cases hPow : s.current.kind = .POW
        · rw [if_pos hPow, matchTok_eq_pos _ _ hPow]
          simp only
          have hlt1 : s.pos < s.tokens.length :=
            cur_ne_eof_pos_lt s hinv (by rw [hPow]; decide)
          have hμ1 : measureP (advance s) < measureP s := by
            unfold measureP
            rw [advance_tokens, advance_pos_succ s hlt1]
            omega
          have hinv1 : INVp (advance s) := advance_inv s hinv
          by_cases hLp : (advance s).current.kind = .LPAREN
          · rw [matchTok_eq_pos _ _ hLp]
            simp only
            have hlt2 : (advance s).pos < (advance s).tokens.length :=
              cur_ne_eof_pos_lt _ hinv1 (by rw [hLp]; decide)
            have hμ2 : measureP (advance (advance s)) < measureP (advance s) := by
              unfold measureP
              rw [advance_tokens, advance_pos_succ _ hlt2]
              omega
            have hinv2 : INVp (advance (advance s)) := advance_inv _ hinv1
            have hex : (parseRun f .expr (advance (advance s))).isSome :=
              ih .expr _ hinv2 (by simp only [rank]; omega)
            rcases hp : parseRun f .expr (advance (advance s)) with _ | ⟨r₁, s₃⟩
            · rw [hp] at hex
              simp at hex
            · obtain ⟨ht, hpos, hinvp, _⟩ := run_sound f .expr _ r₁ s₃ hp
              have hinv₃ := hinvp hinv2
              have hμ3 : measureP s₃ ≤ measureP (advance (advance s)) := by
                unfold measureP
                rw [ht]
                omega
              cases r₁ with
              | none => simp
              | some arg1 =>
                simp only
                by_cases hCm : s₃.current.kind = .COMMA
                · rw [matchTok_eq_pos _ _ hCm]
                  simp only
                  have hlt3 : s₃.pos < s₃.tokens.length :=
                    cur_ne_eof_pos_lt _ hinv₃ (by rw [hCm]; decide)
                  have hμ4 : measureP (advance s₃) < measureP s₃ := by
                    unfold measureP
                    rw [advance_tokens, advance_pos_succ _ hlt3]
                    omega
                  have hex2 : (parseRun f .expr (advance s₃)).isSome :=
                    ih .expr _ (advance_inv _ hinv₃)
                      (by simp only [rank]; omega)
                  rcases hp₂ : parseRun f .expr (advance s₃) with _ | ⟨r₂, s₅⟩
                  · rw [hp₂] at hex2
                    simp at hex2
                  · cases r₂ with
                    | none => simp
                    | some arg2 =>
                      simp only
                      by_cases hRp : s₅.current.kind = .RPAREN
                      · rw [matchTok_eq_pos _ _ hRp]
                        simp
                      · rw [matchTok_eq_neg _ _ hRp]
                        simp
                · rw [matchTok_eq_neg _ _ hCm]
                  simp
          · rw [matchTok_eq_neg _ _ hLp]
            simp
        · rw [if_neg hPow]
          simp

/-- A completed parsing procedure only builds ASTs whose literals are the
non-negative payloads of `INT` tokens (plus the accumulator it was given). -/
theorem run_lits :
    ∀ (f : Nat) (c : Call) (s : PState) (a : AST) (s' : PState),
      INVp s →
      (∀ t ∈ s.tokens, t.kind = .INT → ∀ v, t.value = some v → 0 ≤ v) →
      CallLits c →
      parseRun f c s = some (some a, s') → NonNegLits a := by
  intro f
  induction f with
  | zero =>
    intro c s a s' _ _ _ h
    exact absurd h (by simp [parseRun])
  | succ f ih =>
    intro c s a s' hinv htoks hcl hrun
    cases c with
    | expr =>
      exact ih .sum s a s' hinv htoks trivial hrun
    | sum =>
      simp only [parseRun] at hrun
      rcases hp : parseRun f .prod s with _ | ⟨r₁, s₁⟩
      · rw [hp] at hrun
        simp at hrun
      · rw [hp] at hrun
        obtain ⟨ht, _, hinvp, _⟩ := run_sound f .prod s r₁ s₁ hp
        cases r₁ with
        | none => simp at hrun
        | some node =>
          simp only at hrun
          have hnode : NonNegLits node := ih .prod s node s₁ hinv htoks trivial hp
          by_cases hpl : s₁.current.kind = .PLUS
          · rw [sumTail_pos s₁ hpl] at hrun
            simp only at hrun
            have htoks₁ : ∀ t ∈ (advance s₁).tokens, t.kind = .INT →
                ∀ v, t.value = some v → 0 ≤ v := by
              rw [advance_tokens, ht]
              exact htoks
            exact ih (.sumLoop node) (advance s₁) a s'
              (advance_inv s₁ (hinvp hinv)) htoks₁ hnode hrun
          · rw [sumTail_neg s₁ hpl] at hrun
            simp only [Option.some.injEq, Prod.mk.injEq] at hrun
            obtain ⟨h₁, _⟩ := hrun
            subst h₁
            exact hnode
    | sumLoop node =>
      simp only [parseRun] at hrun
      rcases hp : parseRun f .prod s with _ | ⟨r₁, s₁⟩
      · rw [hp] at hrun
        simp at hrun
      · rw [hp] at hrun
        obtain ⟨ht, _, hinvp, _⟩ := run_sound f .prod s r₁ s₁ hp
        cases r₁ with
        | none => simp at hrun
        | some right =>
          simp only at hrun
          have hright : NonNegLits right :=
            ih .prod s right s₁ hinv htoks trivial hp
          by_cases hpl : s₁.current.kind = .PLUS
          · rw [sumTail_pos s₁ hpl] at hrun
            simp only at hrun
            have htoks₁ : ∀ t ∈ (advance s₁).tokens, t.kind = .INT →
                ∀ v, t.value = some v → 0 ≤ v := by
              rw [advance_tokens, ht]
              exact htoks
            exact ih (.sumLoop (.add node right)) (advance s₁) a s'
              (advance_inv s₁ (hinvp hinv)) htoks₁ ⟨hcl, hright⟩ hrun
          · rw [sumTail_neg s₁ hpl] at hrun
            simp only [Option.some.injEq, Prod.mk.injEq] at hrun
            obtain ⟨h₁, _⟩ := hrun
            subst h₁
            exact ⟨hcl, hright⟩
    | prod =>
      simp only [parseRun] at hrun
      rcases hp : parseRun f .atom s with _ | ⟨r₁, s₁⟩
      · rw [hp] at hrun
        simp at hrun
      · rw [hp] at hrun
        obtain ⟨ht, _, hinvp, _⟩ := run_sound f .atom s r₁ s₁ hp
        cases r₁ with
        | none => simp at hrun
        | some node =>
          simp only at hrun
          have hnode : NonNegLits node := ih .atom s node s₁ hinv htoks trivial hp
          by_cases hpl : s₁.current.kind = .MULT
          · rw [prodTail_pos s₁ hpl] at hrun
            simp only at hrun
            have htoks₁ : ∀ t ∈ (advance s₁).tokens, t.kind = .INT →
                ∀ v, t.value = some v → 0 ≤ v := by
              rw [advance_tokens, ht]
              exact htoks
            exact ih (.prodLoop node) (advance s₁) a s'
              (advance_inv s₁ (hinvp hinv)) htoks₁ hnode hrun
          · rw [prodTail_neg s₁ hpl] at hrun
            simp only [Option.some.injEq, Prod.mk.injEq] at hrun
            obtain ⟨h₁, _⟩ := hrun
            subst h₁
            exact hnode
    | prodLoop node =>
      simp only [parseRun] at hrun
      rcases hp : parseRun f .atom s with _ | ⟨r₁, s₁⟩
      · rw [hp] at hrun
        simp at hrun
      · rw [hp] at hrun
        obtain ⟨ht, _, hinvp, _⟩ := run_sound f .atom s r₁ s₁ hp
        cases r₁ with
        | none => simp at hrun
        | some right =>
          simp only at hrun
          have hright : NonNegLits right :=
            ih .atom s right s₁ hinv htoks trivial hp
          by_cases hpl : s₁.current.kind = .MULT
          · rw [prodTail_pos s₁ hpl] at hrun
            simp only at hrun
            have htoks₁ : ∀ t ∈ (advance s₁).tokens, t.kind = .INT →
                ∀ v, t.value = some v → 0 ≤ v := by
              rw [advance_tokens, ht]
              exact htoks
            exact ih (.prodLoop (.mul node right)) (advance s₁) a s'
              (advance_inv s₁ (hinvp hinv)) htoks₁ ⟨hcl, hright⟩ hrun
          · rw [prodTail_neg s₁ hpl] at hrun
            simp only [Option.some.injEq, Prod.mk.injEq] at hrun
            obtain ⟨h₁, _⟩ := hrun
            subst h₁
            exact ⟨hcl, hright⟩
    | atom =>
      simp only [parseRun] at hrun
      by_cases hInt : s.current.kind = .INT
      · rw [if_pos hInt, matchTok_eq_pos _ _ hInt] at hrun
        simp only [Option.some.injEq, Prod.mk.injEq] at hrun
        obtain ⟨h₁, _⟩ := hrun
        subst h₁
        have hmem : s.current ∈ s.tokens := by
          obtain ⟨_, _, _, i4⟩ := hinv
          rcases i4 with i4 | i4
          · exact i4
          · rw [i4] at hInt
            exact absurd hInt (by decide)
        have hval := htoks s.current hmem hInt
        show 0 ≤ s.current.value.getD 0
        cases hv : s.current.value with
        | none => simp
        | some v =>
          simpa using hval v hv
      · rw [if_neg hInt] at hrun
        by_cases hPow : s.current.kind = .POW
        · rw [if_pos hPow, matchTok_eq_pos _ _ hPow] at hrun
          simp only at hrun
          by_cases hLp : (advance s).current.kind = .LPAREN
          · rw [matchTok_eq_pos _ _ hLp] at hrun
            simp only at hrun
            have hinv2 : INVp (advance (advance s)) :=
              advance_inv _ (advance_inv _ hinv)
            have htoks2 : ∀ t ∈ (advance (advance s)).tokens, t.kind = .INT →
                ∀ v, t.value = some v → 0 ≤ v := by
              rw [advance_tokens, advance_tokens]
              exact htoks
            rcases hp : parseRun f .expr (advance (advance s)) with _ | ⟨r₁, s₃⟩
            · rw [hp] at hrun
              simp at hrun
            · rw [hp] at hrun
              obtain ⟨ht, _, hinvp, _⟩ := run_sound f .expr _ r₁ s₃ hp
              cases r₁ with
              | none => simp at hrun
              | some arg1 =>
                simp only at hrun
                have harg1 : NonNegLits arg1 :=
                  ih .expr _ arg1 s₃ hinv2 htoks2 trivial hp
                by_cases hCm : s₃.current.kind = .COMMA
                · rw [matchTok_eq_pos _ _ hCm] at hrun
                  simp only at hrun
                  have hinv3 : INVp (advance s₃) :=
                    advance_inv _ (hinvp hinv2)
                  have htoks3 : ∀ t ∈ (advance s₃).tokens, t.kind = .INT →
                      ∀ v, t.value = some v → 0 ≤ v := by
                    rw [advance_tokens, ht]
                    exact htoks2
                  rcases hp₂ : parseRun f .expr (advance s₃) with _ | ⟨r₂, s₅⟩
                  · rw [hp₂] at hrun
                    simp at hrun
                  · rw [hp₂] at hrun
                    cases r₂ with
                    | none => simp at hrun
                    | some arg2 =>
                      simp only at hrun
                      have harg2 : NonNegLits arg2 :=
                        ih .expr _ arg2 s₅ hinv3 htoks3 trivial hp₂
                      by_cases hRp : s₅.current.kind = .RPAREN
                      · rw [matchTok_eq_pos _ _ hRp] at hrun
                        simp only [Option.some.injEq, Prod.mk.injEq] at hrun
                        obtain ⟨h₁, _⟩ := hrun
                        subst h₁
                        exact ⟨harg1, harg2⟩
                      · rw [matchTok_eq_neg _ _ hRp] at hrun
                        simp at hrun
                · rw [matchTok_eq_neg _ _ hCm] at hrun
                  simp at hrun
          · rw [matchTok_eq_neg _ _ hLp] at hrun
            simp at hrun
        · rw [if_neg hPow] at hrun
          simp at hrun

/-- The initial parser state built from an EOF-terminated token list is
well-formed. -/
theorem initState_inv (toks : List Token)
    (h : toks.getLast?.map Token.kind = some .EOF) : INVp (initState toks) := by
  unfold initState
  apply advance_inv
  refine ⟨Nat.zero_le _, h, ?_, Or.inr rfl⟩
  intro h0
  have hnil : toks = [] := List.length_eq_zero.mp h0.symm
  rw [hnil] at h
  simp at h

/-- A parse that returns an AST comes from a completed `parse_expr` run
returning that AST. -/
theorem parse_some (toks : List Token) (a : AST) (h : (parse toks).1 = some a) :
    ∃ s', parseRun (parseFuel toks) .expr (initState toks) =
      some (some a, s') := by
  unfold parse at h
  rcases hrun : parseRun (parseFuel toks) .expr (initState toks) with _ | ⟨r, s'⟩
  · rw [hrun] at h
    simp at h
  · rw [hrun] at h
    simp only at h
    refine ⟨s', ?_⟩
    by_cases heof : s'.current.kind = .EOF
    · rw [if_pos heof] at h
      simp only at h
      rw [h]
    · rw [if_neg heof] at h
      simp only at h
      rw [h]

/-- C4 (amended): on an EOF-terminated token list the parse always
records at most three diagnostics, and a parse that produces no AST
records at least one — but not always exactly one: the first unmet
expectation halts the descent with one message, a failed comma or
closing-parenthesis `_match` inside `pow` appends a supplementary
message, and the top-level end check may append one trailing-token
message. -/
theorem parse_failure_diag_bounds (toks : List Token)
    (h : toks.getLast?.map Token.kind = some .EOF) :
    (parse toks).2.length ≤ 3 ∧
    ((parse toks).1 = none → 1 ≤ (parse toks).2.length) := by
  have hinv := initState_inv toks h
  have htl : (initState toks).tokens = toks := advance_tokens _
  have hsome : (parseRun (parseFuel toks) .expr (initState toks)).isSome := by
    apply run_fuel _ .expr _ hinv
    unfold parseFuel
    have hμ : measureP (initState toks) ≤ toks.length + 1 := by
      unfold measureP
      rw [htl]
      omega
    simp only [rank]
    omega
  rcases hrun : parseRun (parseFuel toks) .expr (initState toks) with _ | ⟨r, s'⟩
  · rw [hrun] at hsome
    simp at hsome
  · obtain ⟨_, _, _, es, herr, hcnt⟩ := run_sound _ _ _ _ _ hrun
    have hini : (initState toks).errors = [] := advance_errors _
    rw [hini, List.nil_append] at herr
    by_cases heof : s'.current.kind = .EOF
    · have hpeq : parse toks = (r, s'.errors) := by
        unfold parse
        rw [hrun]
        simp only
        rw [if_pos heof]
      rw [hpeq]
      simp only
      rw [herr]
      cases r with
      | none =>
        rcases hcnt with hc | hc <;> rw [hc] <;> exact ⟨by omega, fun _ => by omega⟩
      | some a =>
        have hc : es.length = 0 := hcnt
        rw [hc]
        exact ⟨by omega, fun hcon => by simp at hcon⟩
    · have hpeq : parse toks =
          (r, s'.errors ++
            [⟨.trailing s'.current.kind, s'.current.line, s'.current.col⟩]) := by
        unfold parse
        rw [hrun]
        simp only
        rw [if_neg heof]
      rw [hpeq]
      simp only [List.length_append, List.length_singleton]
      rw [herr]
      cases r with
      | none =>
        rcases hcnt with hc | hc <;> rw [hc] <;> exact ⟨by omega, fun _ => by omega⟩
      | some a =>
        have hc : es.length = 0 := hcnt
        rw [hc]
        exact ⟨by omega, fun hcon => by simp at hcon⟩

/-- Witness for C4's amended bound at the token sequence of `"+"`. -/
theorem parse_failure_diag_bounds_witness :
    (parse [⟨.PLUS, none, 1, 1⟩, ⟨.EOF, none, 1, 2⟩]).2.length ≤ 3 ∧
    ((parse [⟨.PLUS, none, 1, 1⟩, ⟨.EOF, none, 1, 2⟩]).1 = none →
      1 ≤ (parse [⟨.PLUS, none, 1, 1⟩, ⟨.EOF, none, 1, 2⟩]).2.length) :=
  parse_failure_diag_bounds [⟨.PLUS, none, 1, 1⟩, ⟨.EOF, none, 1, 2⟩] (by decide)

/-- C8: the defensive negative-value branches are unreachable across the
whole pipeline: every `INT` token payload is (the cast of) a natural
number, the scanner never emits its negative-literal diagnostic, the
evaluator never emits any of its negative-operand/negative-result
diagnostics, and every computed value is non-negative. -/
theorem negative_branches_unreachable :
    ∀ s : String,
      (∀ t ∈ (scan s).1, t.kind = .INT → ∃ n : Nat, t.value = some (n : Int)) ∧
      (∀ d ∈ (scan s).2, ∀ v : Int, d.msg ≠ .negLiteral v) ∧
      (∀ m ∈ (runAll s).2.2.2, negFreeSem m) ∧
      (∀ v, (runAll s).2.2.1 = some v → 0 ≤ v) := by
  intro s
  obtain ⟨hv, hd⟩ := scanAux_values s.data.length s.data 1 1 (le_refl _)
  obtain ⟨_, heof, _, _, _⟩ := scanAux_inv s.data.length s.data 1 1 (le_refl _)
  refine ⟨hv, hd, ?_⟩
  have hsem : (runAll s).2.2 = evaluateTop (parse (scan s).1).1 := rfl
  rcases hp : (parse (scan s).1).1 with _ | ast
  · rw [hsem, hp]
    constructor
    · intro m hm
      simp only [evaluateTop, List.mem_singleton] at hm
      subst hm
      trivial
    · intro v hv'
      simp [evaluateTop] at hv'
  · obtain ⟨s', hrun⟩ := parse_some _ _ hp
    have hinv : INVp (initState (scan s).1) := initState_inv _ heof
    have htoks : ∀ t ∈ (initState (scan s).1).tokens, t.kind = .INT →
        ∀ v, t.value = some v → 0 ≤ v := by
      unfold initState
      rw [advance_tokens]
      intro t ht hk v hval
      obtain ⟨n, hn⟩ := hv t ht hk
      rw [hval] at hn
      obtain rfl : v = (n : Int) := by
        simpa using hn
      exact Int.natCast_nonneg n
    have hlits : NonNegLits ast :=
      run_lits (parseFuel (scan s).1) .expr (initState (scan s).1) ast s'
        hinv htoks trivial hrun
    obtain ⟨hval, hmsg⟩ := eval_nonneg ast hlits
    rw [hsem, hp]
    exact ⟨hmsg, hval⟩

/-- C10: the parser always terminates on an EOF-terminated token list and
stays in bounds: `_advance` past the end of the list is the identity (the
cursor keeps returning the final EOF token), the fuel bound derived from
the remaining-token count is never exhausted, and the final cursor index
never passes the end of the list. -/
theorem parser_terminates (toks : List Token)
    (h : toks.getLast?.map Token.kind = some .EOF) :
    (∀ s : PState, s.tokens.length ≤ s.pos → advance s = s) ∧
    (parseRun (parseFuel toks) .expr (initState toks)).isSome ∧
    (∀ r s', parseRun (parseFuel toks) .expr (initState toks) = some (r, s') →
      s'.pos ≤ s'.tokens.length) := by
  have hinv := initState_inv toks h
  have htl : (initState toks).tokens = toks := advance_tokens _
  have hsome : (parseRun (parseFuel toks) .expr (initState toks)).isSome := by
    apply run_fuel _ .expr _ hinv
    unfold parseFuel
    have hμ : measureP (initState toks) ≤ toks.length + 1 := by
      unfold measureP
      rw [htl]
      omega
    simp only [rank]
    omega
  refine ⟨advance_stuck, hsome, ?_⟩
  intro r s' hrun
  obtain ⟨_, _, hinvp, _⟩ := run_sound _ _ _ _ _ hrun
  exact (hinvp hinv).1

/-- Witness for C10 at the one-token list holding only EOF. -/
theorem parser_terminates_witness :
    (∀ s : PState, s.tokens.length ≤ s.pos → advance s = s) ∧
    (parseRun (parseFuel [⟨.EOF, none, 1, 1⟩]) .expr
      (initState [⟨.EOF, none, 1, 1⟩])).isSome ∧
    (∀ r s', parseRun (parseFuel [⟨.EOF, none, 1, 1⟩]) .expr
        (initState [⟨.EOF, none, 1, 1⟩]) = some (r, s') →
      s'.pos ≤ s'.tokens.length) :=
  parser_terminates [⟨.EOF, none, 1, 1⟩] (by decide)

end Translator
